import Mathlib

/-!
Verification of the wora music-player library scanner/reconciler, the
playlist-membership operations, the renderer album cache's sorting, the
album-art cache, and the Last.fm request signing, against their
natural-language specification.

The embedding is shallow: each TypeScript function of the repository is
translated into an executable Lean definition over explicit state.  The
SQLite store is a record of row lists; `id INTEGER PRIMARY KEY` assignment
is modelled as max-of-existing-ids-plus-one, which is SQLite's rowid
behaviour.  Filesystem trees are finite inductive values walked in
`readdir` order.  JavaScript string truthiness (`x || d` yielding `d` for
`undefined`/`null`/`""`) is modelled by `jsStr`/`jsTruthy`.
`String.localeCompare` and the default `Array.prototype.sort` string
comparison are modelled as lexicographic comparison of character code
points, and `Array.prototype.sort` itself as a stable insertion sort,
which is the behaviour ECMAScript guarantees for a consistent comparator.
MD5 is kept abstract (a `String → String` parameter): no verified claim
depends on the digest beyond it being a deterministic function of the
hashed string.
-/

namespace Wora

/-- Models the JavaScript expression `o || d` for a string `o` that may be
`undefined`: the default is taken when the value is absent or the empty
string (both falsy in JavaScript). -/
def jsStr (o : Option String) (d : String) : String :=
  match o with
  | some s => if s = "" then d else s
  | none => d

/-- Models JavaScript truthiness of an optional string. -/
def jsTruthy (o : Option String) : Bool :=
  match o with
  | some s => !(s = "")
  | none => false

/-- Three-way lexicographic comparison of character lists by code point. -/
def charListCmp : List Char → List Char → Int
  | [], [] => 0
  | [], _ :: _ => -1
  | _ :: _, [] => 1
  | a :: as, b :: bs => if a < b then -1 else if b < a then 1 else charListCmp as bs

/-- Models `String.prototype.localeCompare` (and the default string
comparison of `Array.prototype.sort`) as code-point lexicographic
comparison returning -1/0/1. -/
def strCmp (a b : String) : Int := charListCmp a.data b.data

/-- Models `String.prototype.toLowerCase` (ASCII-relevant part; extension
strings compared against it are ASCII). -/
def strToLower (s : String) : String := String.mk (s.data.map Char.toLower)

/-- Splits a character list at every occurrence of `sep`; always returns a
non-empty list of segments. -/
def splitChar (sep : Char) : List Char → List (List Char)
  | [] => [[]]
  | x :: xs =>
    match splitChar sep xs with
    | [] => []
    | h :: t => if x = sep then [] :: h :: t else (x :: h) :: t

/-- Models POSIX `path.join(dir, name)` for the normalized paths produced
by the walkers (no trailing slashes). -/
def pjoin (dir name : String) : String := dir ++ "/" ++ name

/-- Models POSIX `path.basename`. -/
def pbasename (p : String) : String := String.mk ((splitChar '/' p.data).getLastD [])

/-- Joins path segments back with slashes (helper for `pdirname`). -/
def joinSegs : List (List Char) → List Char
  | [] => []
  | [l] => l
  | l :: ls => l ++ '/' :: joinSegs ls

/-- Models POSIX `path.dirname` for the slash-containing paths produced by
`pjoin`. -/
def pdirname (p : String) : String := String.mk (joinSegs ((splitChar '/' p.data).dropLast))

/-- Models Node's `path.extname`: the substring of the basename from its
last dot, empty when there is no dot or the dot is the leading character. -/
def extname (p : String) : String :=
  let b := (splitChar '/' p.data).getLastD []
  let r := b.reverse
  let pre := r.takeWhile (fun c => c != '.')
  match r.drop pre.length with
  | [] => ""
  | [_] => ""
  | _ => String.mk ('.' :: pre.reverse)

/-- The `audioExtensions` list of `connectDB`. -/
def audioExtensions : List String :=
  [".mp3", ".mpeg", ".opus", ".ogg", ".oga", ".wav", ".aac", ".caf",
   ".m4a", ".m4b", ".mp4", ".weba", ".webm", ".dolby", ".flac"]

/-- The `imageExtensions` list of `connectDB`. -/
def imageExtensions : List String :=
  [".png", ".jpg", ".jpeg", ".gif", ".bmp", ".webp"]

/-- Translates `isAudioFile`: extension membership after lowercasing. -/
def isAudioFile (filePath : String) : Bool :=
  audioExtensions.contains (strToLower (extname filePath))

/-- A directory listing in `readdir` order.  `nil` ends a listing, `file`
is a plain-file entry followed by the rest of the listing, `dir` is a
subdirectory entry carrying its own listing followed by the rest.  A
single plain inductive is used (rather than a nested `List`) so that all
recursions over it are structural and kernel-evaluable. -/
inductive FTree where
  | nil
  | file (name : String) (rest : FTree)
  | dir (name : String) (sub : FTree) (rest : FTree)

/-- The audio files directly inside a directory, in listing order (the
non-directory branch of the walkers' per-entry `stat` dispatch). -/
def dirFiles (dir : String) : FTree → List String
  | .nil => []
  | .file n rest =>
      (if isAudioFile (pjoin dir n) then [pjoin dir n] else []) ++ dirFiles dir rest
  | .dir _ _ rest => dirFiles dir rest

/-- Second pass of `scanImmediateDirectory`: the direct audio files of
each immediate subdirectory, in listing order; nested directories are not
descended into. -/
def subdirFiles (dir : String) : FTree → List String
  | .nil => []
  | .file _ rest => subdirFiles dir rest
  | .dir n sub rest => dirFiles (pjoin dir n) sub ++ subdirFiles dir rest

/-- Translates `scanImmediateDirectory`: the root's direct audio files
first, then the direct audio files of each immediate subdirectory. -/
def scanImmediateDirectory (dir : String) (t : FTree) : List String :=
  dirFiles dir t ++ subdirFiles dir t

/-- Translates `scanEntireLibrary`: a full recursive walk in listing
order.  The source iterates the listing in chunks of 50 entries, which
visits entries in exactly listing order, so the chunking is dropped. -/
def scanEntireLibrary (dir : String) : FTree → List String
  | .nil => []
  | .file n rest =>
      (if isAudioFile (pjoin dir n) then [pjoin dir n] else []) ++ scanEntireLibrary dir rest
  | .dir n sub rest => scanEntireLibrary (pjoin dir n) sub ++ scanEntireLibrary dir rest

/-- The tag fields of one parsed audio file (`music-metadata`'s
`metadata.common` plus the rounded `metadata.format.duration`; `duration`
holds `Math.round(metadata.format.duration || 0)`, rounding itself being
outside the verified claims). -/
structure Metadata where
  title : Option String
  artist : Option String
  album : Option String
  albumartist : Option String
  year : Option Nat
  duration : Nat
deriving DecidableEq

/-- A row of the `songs` table. -/
structure Song where
  id : Nat
  filePath : String
  name : String
  artist : String
  duration : Nat
  albumId : Nat
deriving DecidableEq

/-- A row of the `albums` table. -/
structure Album where
  id : Nat
  name : String
  artist : String
  year : Option Nat
  cover : Option String
deriving DecidableEq

/-- A row of the `playlistSongs` join table. -/
structure PlaylistSong where
  playlistId : Nat
  songId : Nat
deriving DecidableEq

/-- The parts of the SQLite store the scanner reads and writes. -/
structure Store where
  songs : List Song
  albums : List Album
  playlistSongs : List PlaylistSong
deriving DecidableEq

/-- A store with no rows. -/
def emptyStore : Store := ⟨[], [], []⟩

/-- Models SQLite's `INTEGER PRIMARY KEY` rowid assignment: one more than
the largest id in the table. -/
def freshId (ids : List Nat) : Nat := ids.foldr max 0 + 1

/-- The id column of the `songs` table. -/
def songIds (st : Store) : List Nat := st.songs.map (fun s => s.id)

/-- The id column of the `albums` table. -/
def albumIds (st : Store) : List Nat := st.albums.map (fun a => a.id)

/-- Translates `getAllFilePathsFromDb` (the set is modelled as the list of
paths, membership standing in for `Set.has`). -/
def getAllFilePathsFromDb (st : Store) : List String :=
  st.songs.map (fun s => s.filePath)

/-- The album-artist fallback chain of `processAudioFile`:
`metadata.common.albumartist || metadata.common.artist || "Various Artists"`. -/
def albumArtistOf (m : Metadata) : String :=
  jsStr m.albumartist (jsStr m.artist "Various Artists")

/-- The album-name fallback of `processAudioFile`:
`metadata.common.album || "Unknown Album"`. -/
def albumNameOf (m : Metadata) : String := jsStr m.album "Unknown Album"

/-- The per-batch album cache key of `processAudioFile`:
`` `${metadata.common.album || "Unknown Album"}-${metadata.common.artist || "Unknown Artist"}` ``. -/
def albumKeyOf (m : Metadata) : String :=
  albumNameOf m ++ "-" ++ jsStr m.artist "Unknown Artist"

/-- Lookup in the per-batch album cache (`albumCache.get`); the cache is
an association list whose most recent binding shadows older ones, which
matches `Map.set` overwriting. -/
def lookupCache (cache : List (String × Album)) (k : String) : Option Album :=
  (cache.find? (fun e => e.1 == k)).map (fun e => e.2)

/-- The `db.insert(songs).values({...})` call at the end of
`processAudioFile`.  At every call site the title has already been checked
truthy, so `jsStr m.title ""` is the title itself. -/
def insertSong (st : Store) (file : String) (m : Metadata) (albumId : Nat) : Store :=
  { st with songs := st.songs ++
      [{ id := freshId (songIds st), filePath := file, name := jsStr m.title "",
         artist := jsStr m.artist "Unknown Artist", duration := m.duration,
         albumId := albumId }] }

/-- Translates `processAudioFile`.  `md` is the `parseFile` result (`none`
models a parse failure, which the source catches, leaving the store
untouched).  `artOf` gives the resolved art path for a folder: in the
source, art resolution (`findFirstImageInDirectory` plus
`processAlbumArt`/`processEmbeddedArt`, memoized per folder through the
`-art` cache entries) is a deterministic function of the folder within a
scan, so it is passed as a function and the memo layer is dropped.
JavaScript truthiness of `artPath` is `Option.isSome` (cached art paths
are non-empty strings).  `album.year !== metadata.common.year` is
modelled as `Option Nat` inequality. -/
def processAudioFile (artOf : String → Option String) (file : String)
    (md : Option Metadata) (cache : List (String × Album)) (st : Store) :
    List (String × Album) × Store :=
  match md with
  | none => (cache, st)
  | some m =>
    if jsTruthy m.title = false then (cache, st)
    else
      let artPath := artOf (pdirname file)
      let albumName := albumNameOf m
      let albumKey := albumKeyOf m
      match lookupCache cache albumKey with
      | some album => (cache, insertSong st file m album.id)
      | none =>
        match st.albums.find? (fun a => a.name == albumName) with
        | some album =>
          let albumArtist := albumArtistOf m
          if album.artist ≠ albumArtist ∨ album.year ≠ m.year ∨
              (artPath.isSome ∧ album.cover ≠ artPath) then
            let album' : Album :=
              { album with
                artist := albumArtist,
                year := m.year,
                cover := (match artPath with | some p => some p | none => album.cover) }
            let albums' := st.albums.map (fun a => if a.id = album.id then album' else a)
            let st' := { st with albums := albums' }
            ((albumKey, album') :: cache, insertSong st' file m album'.id)
          else
            ((albumKey, album) :: cache, insertSong st file m album.id)
        | none =>
          let album : Album :=
            { id := freshId (albumIds st), name := albumName,
              artist := albumArtistOf m, year := m.year, cover := artPath }
          let st' := { st with albums := st.albums ++ [album] }
          ((albumKey, album) :: cache, insertSong st' file m album.id)

/-- The body of `processBatch`'s `for` loop, as a recursion over the
batch: each file in order, skipped when its path is in the database
snapshot `db`, otherwise handed to `processAudioFile` with the threaded
album cache. -/
def processBatchAux (artOf : String → Option String) (meta : String → Option Metadata)
    (db : List String) : List String → List (String × Album) × Store →
    List (String × Album) × Store
  | [], acc => acc
  | f :: fs, acc =>
    processBatchAux artOf meta db fs
      (if f ∈ db then acc else processAudioFile artOf f (meta f) acc.1 acc.2)

/-- Translates `processBatch`: a fresh album cache per batch, then each
file of the batch in order, skipping files whose path is in the database
snapshot `dbFilePaths`. -/
def processBatch (artOf : String → Option String) (meta : String → Option Metadata)
    (files : List String) (dbFilePaths : List String) (st : Store) : Store :=
  (processBatchAux artOf meta dbFilePaths files (([] : List (String × Album)), st)).2

/-- The batch loops of `processLibrary`: `processBatch` on each batch in
order, every batch checked against the same database snapshot `db`. -/
def processBatches (artOf : String → Option String) (meta : String → Option Metadata)
    (db : List String) : List (List String) → Store → Store
  | [], st => st
  | b :: bs, st => processBatches artOf meta db bs (processBatch artOf meta b db st)

/-- Splits a list into consecutive chunks of `n` elements (the last chunk
may be shorter); `fuel` bounds the recursion and any `fuel ≥ l.length`
gives the same result for `n ≥ 1`. -/
def chunksFuel : Nat → Nat → List α → List (List α)
  | 0, _, _ => []
  | _ + 1, _, [] => []
  | fuel + 1, n, x :: xs => (x :: xs).take n :: chunksFuel fuel n ((x :: xs).drop n)

/-- The batch decomposition `allFiles.slice(i, i + batchSize)` for
`i = 0, batchSize, 2·batchSize, …`. -/
def chunks (n : Nat) (l : List α) : List (List α) := chunksFuel l.length n l

/-- One iteration of the orphan-deletion transaction body: delete the
`playlistSongs` rows of one orphaned song, then the song row itself. -/
def deleteSongStep (acc : Store) (s : Song) : Store :=
  { acc with
    playlistSongs := acc.playlistSongs.filter (fun r => r.songId != s.id),
    songs := acc.songs.filter (fun r => r.id != s.id) }

/-- One orphan-deletion transaction: `deleteSongStep` for each song of the
batch in order. -/
def deleteSongs : List Song → Store → Store
  | [], st => st
  | s :: ss, st => deleteSongs ss (deleteSongStep st s)

/-- The batched orphan-deletion loop: one transaction per batch. -/
def deleteSongBatches : List (List Song) → Store → Store
  | [], st => st
  | b :: bs, st => deleteSongBatches bs (deleteSongs b st)

/-- The album pass of `cleanupOrphanedRecords`: iterate the album rows
read once after the song deletions, deleting each album that has no song
referencing it (the song table does not change during this pass). -/
def cleanupAlbums : List Album → Store → Store
  | [], st => st
  | a :: rest, st =>
    cleanupAlbums rest
      (if (st.songs.filter (fun s => s.albumId == a.id)).isEmpty then
        { st with albums := st.albums.filter (fun b => b.id != a.id) }
      else st)

/-- Translates `cleanupOrphanedRecords`: songs whose path is not among
`currentFiles` are deleted (with their playlist rows) in transactional
batches of 50, then every album with no remaining songs is deleted. -/
def cleanupOrphanedRecords (currentFiles : List String) (st : Store) : Store :=
  let deletedFiles := st.songs.filter (fun s => !(currentFiles.contains s.filePath))
  let st1 := deleteSongBatches (chunks 50 deletedFiles) st
  cleanupAlbums st1.albums st1

/-- The non-incremental branch of `processLibrary`: full walk, batches of
300, then orphan cleanup.  The inter-batch `setTimeout` yields do not
change the store and are dropped. -/
def processLibraryFull (artOf : String → Option String)
    (meta : String → Option Metadata) (allFiles : List String) (st : Store) : Store :=
  let dbFilePaths := getAllFilePathsFromDb st
  let st1 := processBatches artOf meta dbFilePaths (chunks 300 allFiles) st
  cleanupOrphanedRecords allFiles st1

/-- The incremental branch of `processLibrary`: the shallow scan's files
are processed first; the deferred background pass walks the full tree and
iterates `allFiles` from index `initialBatch.length` in batches of 100
(`for (let i = initialBatch.length; i < allFiles.length; i += batchSize)`),
against the same database snapshot taken before the shallow pass; then
orphan cleanup over the full walk's files. -/
def processLibraryIncremental (artOf : String → Option String)
    (meta : String → Option Metadata) (initialBatch allFiles : List String)
    (st : Store) : Store :=
  let dbFilePaths := getAllFilePathsFromDb st
  let st1 := processBatch artOf meta initialBatch dbFilePaths st
  let st2 := processBatches artOf meta dbFilePaths
    (chunks 100 (allFiles.drop initialBatch.length)) st1
  cleanupOrphanedRecords allFiles st2

/-- A file is inert for the scanner when its metadata cannot be parsed or
parses without a truthy title: `processAudioFile` then leaves the store
unchanged. -/
def inertMeta (md : Option Metadata) : Prop :=
  match md with
  | none => True
  | some m => jsTruthy m.title = false

/-- One non-incremental reconcile of a music folder: `processLibrary`
with `incremental = false`, the walks taken over the modelled tree. -/
def reconcileFull (artOf : String → Option String) (meta : String → Option Metadata)
    (root : String) (t : FTree) (st : Store) : Store :=
  processLibraryFull artOf meta (scanEntireLibrary root t) st

/-- One incremental reconcile of a music folder: `processLibrary` with
`incremental = true`. -/
def reconcileIncremental (artOf : String → Option String)
    (meta : String → Option Metadata) (root : String) (t : FTree) (st : Store) : Store :=
  processLibraryIncremental artOf meta
    (scanImmediateDirectory root t) (scanEntireLibrary root t) st

/-- Translates `addSongToPlaylist`: existence check, then insert only when
absent; returns the soft result flag. -/
def addSongToPlaylist (playlistId songId : Nat) (rows : List PlaylistSong) :
    Bool × List PlaylistSong :=
  match rows.find? (fun ps => decide (ps.playlistId = playlistId ∧ ps.songId = songId)) with
  | some _ => (false, rows)
  | none => (true, rows ++ [⟨playlistId, songId⟩])

/-- Translates `addToFavourites`: insert the `(1, songId)` membership row
when absent, otherwise delete every matching row. -/
def addToFavourites (songId : Nat) (rows : List PlaylistSong) : List PlaylistSong :=
  match rows.find? (fun ps => decide (ps.playlistId = 1 ∧ ps.songId = songId)) with
  | none => rows ++ [⟨1, songId⟩]
  | some _ => rows.filter (fun ps => !decide (ps.playlistId = 1 ∧ ps.songId = songId))

/-- The renderer's `Album` interface in `albumCache.ts` (optional
`duration`). -/
structure CacheAlbum where
  id : Nat
  name : String
  artist : String
  cover : Option String
  year : Option Nat
  duration : Option Nat
deriving DecidableEq

/-- Stable insertion of `x` into `s` under the three-way comparator `c`:
`x` is placed before the first element `y` with `c x y < 0`, hence after
every element comparing equal to it. -/
def insertCmp (c : α → α → Int) (x : α) : List α → List α
  | [] => [x]
  | y :: ys => if c x y < 0 then x :: y :: ys else y :: insertCmp c x ys

/-- Models `Array.prototype.sort` with comparator `c`: a stable sort
(ECMAScript guarantees stability for a consistent comparator), realized
as left-to-right insertion sort. -/
def sortCmp (c : α → α → Int) (l : List α) : List α :=
  l.foldl (fun acc x => insertCmp c x acc) []

/-- Models JavaScript `x || 0` for an optional number (`a.year || 0`). -/
def jsNum (o : Option Nat) : Nat := o.getD 0

/-- Models JavaScript truthiness of an optional number (zero and absent
are both falsy). -/
def jsTruthyNum (o : Option Nat) : Bool := jsNum o != 0

/-- The duration fallback of the `"duration"` sort branch:
`a.duration || albumWithSongs?.songs?.reduce((t, song) => t + (song.duration || 0), 0) || 0`,
where `songsOf` models the `albumsWithSongs` cache (`none` when the album
is not cached, the list of cached per-song durations otherwise). -/
def albumDurationOf (songsOf : Nat → Option (List Nat)) (a : CacheAlbum) : Nat :=
  if jsTruthyNum a.duration then jsNum a.duration
  else
    match songsOf a.id with
    | some ds => ds.foldl (fun t d => t + d) 0
    | none => 0

/-- The comparator body of `AlbumCache.sortAlbums` (the `switch` on
`sortBy`, before the `sortOrder` sign flip). -/
def albumComparison (songsOf : Nat → Option (List Nat)) (sortBy : String)
    (a b : CacheAlbum) : Int :=
  if sortBy = "name" then strCmp a.name b.name
  else if sortBy = "artist" then strCmp a.artist b.artist
  else if sortBy = "year" then (jsNum a.year : Int) - (jsNum b.year : Int)
  else if sortBy = "duration" then
    if jsTruthyNum a.duration ∧ jsTruthyNum b.duration then
      (jsNum a.duration : Int) - (jsNum b.duration : Int)
    else
      (albumDurationOf songsOf a : Int) - (albumDurationOf songsOf b : Int)
  else strCmp a.name b.name

/-- Translates `AlbumCache.sortAlbums`: copy the input, then sort with the
comparator, negated when `sortOrder` is not `"asc"`. -/
def sortAlbums (songsOf : Nat → Option (List Nat)) (albums : List CacheAlbum)
    (sortBy sortOrder : String) : List CacheAlbum :=
  sortCmp
    (fun a b =>
      if sortOrder = "asc" then albumComparison songsOf sortBy a b
      else -(albumComparison songsOf sortBy a b))
    albums

/-- The managed art-cache directory (`ART_DIR`); the concrete prefix is
irrelevant to the claims. -/
def ART_DIR : String := "userData/utilities/uploads/covers"

/-- The `fs.statSync` fields `processAlbumArt` hashes. -/
structure ImageStat where
  size : Nat
  mtimeMs : Nat
deriving DecidableEq

/-- The files currently present in the art-cache directory. -/
structure ArtState where
  artFiles : List String
deriving DecidableEq

/-- Result of one `processAlbumArt` call: the returned path, the art
directory afterwards, and whether a file write occurred. -/
structure ArtOutcome where
  result : Option String
  state : ArtState
  wrote : Bool
deriving DecidableEq

/-- One entry of an `fs.readdirSync` listing together with its
`stat.isFile()` bit. -/
structure DirEnt where
  name : String
  isFile : Bool

/-- Translates `findFirstImageInDirectory`: the per-session
`processedImages` memo is consulted first; on a miss the first listed
plain file with an image extension is cached and returned (`none` is
cached when there is no such file or the directory cannot be read, the
latter being subsumed by the listing function). -/
def findFirstImageInDirectory (listing : String → List DirEnt)
    (cache : List (String × Option String)) (dir : String) :
    Option String × List (String × Option String) :=
  match (cache.find? (fun e => e.1 == dir)).map (fun e => e.2) with
  | some v => (v, cache)
  | none =>
    match (listing dir).find?
        (fun e => e.isFile && imageExtensions.contains (strToLower (extname e.name))) with
    | some e => (some (pjoin dir e.name), (dir, some (pjoin dir e.name)) :: cache)
    | none => (none, (dir, none) :: cache)

/-- Translates `processAlbumArt`: hash `` `${imagePath}-${size}-${mtimeMs}` ``
with MD5 (kept abstract), form the destination path in the art cache, and
write the image there only when no file exists at that path.  A `stat`
failure is the caught error path returning `null`. -/
def processAlbumArt (md5 : String → String) (stat : String → Option ImageStat)
    (imagePath : String) (s : ArtState) : ArtOutcome :=
  match stat imagePath with
  | none => ⟨none, s, false⟩
  | some st =>
    let imageExt := (extname imagePath).drop 1
    let hashInput := imagePath ++ "-" ++ toString st.size ++ "-" ++ toString st.mtimeMs
    let hash := md5 hashInput
    let artPath := ART_DIR ++ "/" ++ hash ++ "." ++ imageExt
    if artPath ∈ s.artFiles then ⟨some artPath, s, false⟩
    else ⟨some artPath, ⟨artPath :: s.artFiles⟩, true⟩

/-- Result of one folder-art resolution: the resolved path, the
`processedImages` memo afterwards, the art directory afterwards, and
whether a file write occurred. -/
structure ResolveOutcome where
  result : Option String
  images : List (String × Option String)
  art : ArtState
  wrote : Bool
deriving DecidableEq

/-- One folder-art resolution as `processAudioFile` performs it for a
folder: `findFirstImageInDirectory` through its memo, then
`processAlbumArt` on the found image (or no art when the folder has no
image file). -/
def resolveFolderArt (md5 : String → String) (stat : String → Option ImageStat)
    (listing : String → List DirEnt) (cache : List (String × Option String))
    (dir : String) (s : ArtState) : ResolveOutcome :=
  match findFirstImageInDirectory listing cache dir with
  | (some imagePath, cache') =>
    let o := processAlbumArt md5 stat imagePath s
    ⟨o.result, cache', o.state, o.wrote⟩
  | (none, cache') => ⟨none, cache', s, false⟩

/-- Association lookup for `signatureParams[key]` on a JavaScript object
modelled as a key-value list (object keys are unique). -/
def lookupParam (params : List (String × String)) (k : String) : String :=
  ((params.find? (fun e => e.1 == k)).map (fun e => e.2)).getD ""

/-- Translates `generateSignature` of `src/vercel/pages/api/utils/lastfm.ts`:
drop the `format` parameter, sort the remaining parameter names
(`Object.keys(...).sort()`, default string order), concatenate
`name + value` for each, append the shared secret, and MD5-hash the
result (MD5 kept abstract). -/
def generateSignature (md5 : String → String) (apiSecret : String)
    (params : List (String × String)) : String :=
  let signatureParams := params.filter (fun e => e.1 != "format")
  let sortedKeys := sortCmp strCmp (signatureParams.map (fun e => e.1))
  let signatureStr :=
    String.join (sortedKeys.map (fun k => k ++ lookupParam signatureParams k)) ++ apiSecret
  md5 signatureStr

/-- Translates `generateSignature` of `src/main/helpers/lastfm-service.ts`
(the development-mode variant): identical to the proxy's algorithm except
that a `callback` parameter is removed alongside `format`, and the
concatenation is written as an accumulating loop, which builds the same
string. -/
def generateSignatureService (md5 : String → String) (apiSecret : String)
    (params : List (String × String)) : String :=
  let filteredParams := params.filter (fun e => e.1 != "format" && e.1 != "callback")
  let sortedKeys := sortCmp strCmp (filteredParams.map (fun e => e.1))
  let signatureStr :=
    String.join (sortedKeys.map (fun k => k ++ lookupParam filteredParams k)) ++ apiSecret
  md5 signatureStr

/-- Concrete fixture: an art resolver finding no art. -/
def noArt : String → Option String := fun _ => none

/-- Concrete fixture: a music folder holding `z.mp3` at the root and
`b.mp3` nested two levels deep (`A/B/b.mp3`), with `A` listed before
`z.mp3`. -/
def exTree : FTree := .dir "A" (.dir "B" (.file "b.mp3" .nil) .nil) (.file "z.mp3" .nil)

/-- Concrete fixture: both files of `exTree` parse with a title and no
other tags. -/
def exMeta : String → Option Metadata := fun p =>
  if p = "/r/z.mp3" ∨ p = "/r/A/B/b.mp3" then
    some ⟨some "T", none, none, none, none, 0⟩
  else none

/-- Concrete fixture: a file that parses without a title tag. -/
def exMetaNoTitle : String → Option Metadata := fun p =>
  if p = "/r/n.mp3" then some ⟨none, some "A", some "L", none, none, 0⟩ else none

/-- Concrete fixture: two files whose album-cache keys collide, the first
with album tag `Unknown Album-Bob` and artist `Cat`, the second with no
album tag and artist `Bob-Cat` (both keys are `Unknown Album-Bob-Cat`). -/
def exMetaCollide : String → Option Metadata := fun p =>
  if p = "/m/x1.mp3" then
    some ⟨some "T1", some "Cat", some "Unknown Album-Bob", none, none, 0⟩
  else if p = "/m/x2.mp3" then
    some ⟨some "T2", some "Bob-Cat", none, none, none, 0⟩
  else none

/-- Concrete fixture: two renderer albums with the same name. -/
def exTiedAlbums : List CacheAlbum :=
  [⟨1, "A", "X", none, none, none⟩, ⟨2, "A", "Y", none, none, none⟩]

/-- Concrete fixture: an empty `albumsWithSongs` cache. -/
def noSongsCache : Nat → Option (List Nat) := fun _ => none

/-- Concrete fixture: three renderer albums with pairwise distinct
names. -/
def exDistinctAlbums : List CacheAlbum :=
  [⟨1, "B", "X", none, none, none⟩, ⟨2, "A", "Y", none, none, none⟩,
   ⟨3, "C", "Z", none, none, none⟩]

/-! Generic lemmas about ids and chunking. -/

theorem le_foldr_max (x : Nat) (ids : List Nat) (hx : x ∈ ids) : x ≤ ids.foldr max 0 := by
  induction ids with
  | nil => cases hx
  | cons a l ih =>
    rcases List.mem_cons.mp hx with rfl | h
    · exact le_max_left _ _
    · exact le_trans (ih h) (le_max_right _ _)

theorem freshId_not_mem (ids : List Nat) : freshId ids ∉ ids := by
  intro h
  have hle := le_foldr_max _ ids h
  simp only [freshId] at hle
  omega

theorem chunksFuel_flatten {α : Type _} (n : Nat) (hn : 1 ≤ n) :
    ∀ (fuel : Nat) (l : List α), l.length ≤ fuel → (chunksFuel fuel n l).flatten = l := by
  intro fuel
  induction fuel with
  | zero =>
    intro l hl
    have : l = [] := List.length_eq_zero.mp (Nat.le_zero.mp hl)
    subst this
    rfl
  | succ f ih =>
    intro l hl
    cases l with
    | nil => rfl
    | cons x xs =>
      have hdrop : ((x :: xs).drop n).length ≤ f := by
        simp only [List.length_drop, List.length_cons]
        simp only [List.length_cons] at hl
        omega
      simp only [chunksFuel, List.flatten_cons, ih _ hdrop, List.take_append_drop]

theorem chunks_flatten {α : Type _} (n : Nat) (hn : 1 ≤ n) (l : List α) :
    (chunks n l).flatten = l :=
  chunksFuel_flatten n hn l.length l le_rfl

theorem mem_of_mem_chunks {α : Type _} {n : Nat} (hn : 1 ≤ n) {l : List α}
    {b : List α} (hb : b ∈ chunks n l) {x : α} (hx : x ∈ b) : x ∈ l := by
  rw [← chunks_flatten n hn l]
  exact List.mem_flatten.mpr ⟨b, hb, hx⟩

/-! Lemmas about `processAudioFile`. -/

theorem processAudioFile_inert (artOf : String → Option String) (f : String)
    (md : Option Metadata) (h : inertMeta md) (cache : List (String × Album)) (st : Store) :
    processAudioFile artOf f md cache st = (cache, st) := by
  cases md with
  | none => rfl
  | some m =>
    simp only [inertMeta] at h
    simp [processAudioFile, h]

theorem processAudioFile_shape (artOf : String → Option String) (f : String)
    (m : Metadata) (ht : jsTruthy m.title = true) (cache : List (String × Album)) (st : Store) :
    ∃ r : Song,
      (processAudioFile artOf f (some m) cache st).2.songs = st.songs ++ [r] ∧
      r.filePath = f ∧ r.id = freshId (songIds st) ∧
      (processAudioFile artOf f (some m) cache st).2.playlistSongs = st.playlistSongs := by
  simp only [processAudioFile, ht]
  cases hc : lookupCache cache (albumKeyOf m) with
  | some album =>
    exact ⟨_, rfl, rfl, rfl, rfl⟩
  | none =>
    cases hf : st.albums.find? (fun a => a.name == albumNameOf m) with
    | some album =>
      by_cases hu : album.artist ≠ albumArtistOf m ∨ album.year ≠ m.year ∨
          ((artOf (pdirname f)).isSome ∧ album.cover ≠ artOf (pdirname f))
      · simp only [if_pos hu]
        exact ⟨_, rfl, rfl, rfl, rfl⟩
      · simp only [if_neg hu]
        exact ⟨_, rfl, rfl, rfl, rfl⟩
    | none =>
      exact ⟨_, rfl, rfl, rfl, rfl⟩

theorem processAudioFile_nodup (artOf : String → Option String) (f : String)
    (md : Option Metadata) (cache : List (String × Album)) (st : Store)
    (h : (songIds st).Nodup) :
    (songIds (processAudioFile artOf f md cache st).2).Nodup := by
  cases md with
  | none => simpa [processAudioFile_inert artOf f none trivial] using h
  | some m =>
    cases htt : jsTruthy m.title with
    | false =>
      have := processAudioFile_inert artOf f (some m) (by simp [inertMeta, htt]) cache st
      simpa [this] using h
    | true =>
      obtain ⟨r, hsongs, _, hid, _⟩ := processAudioFile_shape artOf f m htt cache st
      simp only [songIds, hsongs, List.map_append, List.map_cons, List.map_nil]
      rw [List.nodup_append]
      refine ⟨h, List.nodup_singleton _, ?_⟩
      intro x hx hx'
      simp only [List.mem_singleton] at hx'
      subst hx'
      rw [hid] at hx
      exact freshId_not_mem (songIds st) hx

/-! Lemmas about `processBatchAux`, `processBatch` and `processBatches`. -/

theorem processBatchAux_id (artOf : String → Option String) (meta : String → Option Metadata)
    (db : List String) (files : List String)
    (h : ∀ f ∈ files, f ∈ db ∨ inertMeta (meta f)) :
    ∀ acc, processBatchAux artOf meta db files acc = acc := by
  induction files with
  | nil => intro acc; rfl
  | cons f fs ih =>
    intro acc
    have hrest : ∀ g ∈ fs, g ∈ db ∨ inertMeta (meta g) :=
      fun g hg => h g (List.mem_cons_of_mem f hg)
    by_cases hdb : f ∈ db
    · simp only [processBatchAux, if_pos hdb]
      exact ih hrest acc
    · have hin : inertMeta (meta f) := (h f (List.mem_cons_self f fs)).resolve_left hdb
      simp only [processBatchAux, if_neg hdb,
        processAudioFile_inert artOf f (meta f) hin]
      exact ih hrest acc

theorem processBatchAux_songs (artOf : String → Option String)
    (meta : String → Option Metadata) (db : List String) (files : List String) :
    ∀ acc, ∃ t, (processBatchAux artOf meta db files acc).2.songs = acc.2.songs ++ t ∧
      ∀ r ∈ t, r.filePath ∈ files ∧ ¬ inertMeta (meta r.filePath) := by
  induction files with
  | nil => intro acc; exact ⟨[], by simp [processBatchAux], by simp⟩
  | cons f fs ih =>
    intro acc
    by_cases hdb : f ∈ db
    · simp only [processBatchAux, if_pos hdb]
      obtain ⟨t, h1, h2⟩ := ih acc
      exact ⟨t, h1, fun r hr => ⟨List.mem_cons_of_mem f (h2 r hr).1, (h2 r hr).2⟩⟩
    · simp only [processBatchAux, if_neg hdb]
      cases hmd : meta f with
      | none =>
        rw [processAudioFile_inert artOf f none trivial]
        obtain ⟨t, h1, h2⟩ := ih acc
        exact ⟨t, by simpa using h1,
          fun r hr => ⟨List.mem_cons_of_mem f (h2 r hr).1, (h2 r hr).2⟩⟩
      | some m =>
        cases htt : jsTruthy m.title with
        | false =>
          rw [processAudioFile_inert artOf f (some m) (by simp [inertMeta, htt])]
          obtain ⟨t, h1, h2⟩ := ih acc
          exact ⟨t, by simpa using h1,
            fun r hr => ⟨List.mem_cons_of_mem f (h2 r hr).1, (h2 r hr).2⟩⟩
        | true =>
          obtain ⟨r, hs, hfp, _, _⟩ := processAudioFile_shape artOf f m htt acc.1 acc.2
          obtain ⟨t, h1, h2⟩ := ih (processAudioFile artOf f (some m) acc.1 acc.2)
          refine ⟨r :: t, ?_, ?_⟩
          · rw [h1, hs, List.append_assoc]
            rfl
          · intro r' hr'
            rcases List.mem_cons.mp hr' with rfl | hr'
            · refine ⟨by rw [hfp]; exact List.mem_cons_self f fs, ?_⟩
              rw [hfp, hmd]
              simp [inertMeta, htt]
            · exact ⟨List.mem_cons_of_mem f (h2 r' hr').1, (h2 r' hr').2⟩

theorem processBatchAux_ps (artOf : String → Option String)
    (meta : String → Option Metadata) (db : List String) (files : List String) :
    ∀ acc, (processBatchAux artOf meta db files acc).2.playlistSongs =
      acc.2.playlistSongs := by
  induction files with
  | nil => intro acc; rfl
  | cons f fs ih =>
    intro acc
    by_cases hdb : f ∈ db
    · simp only [processBatchAux, if_pos hdb]; exact ih acc
    · simp only [processBatchAux, if_neg hdb]
      cases hmd : meta f with
      | none => rw [processAudioFile_inert artOf f none trivial]; exact ih acc
      | some m =>
        cases htt : jsTruthy m.title with
        | false =>
          rw [processAudioFile_inert artOf f (some m) (by simp [inertMeta, htt])]
          exact ih acc
        | true =>
          obtain ⟨r, _, _, _, hps⟩ := processAudioFile_shape artOf f m htt acc.1 acc.2
          rw [ih (processAudioFile artOf f (some m) acc.1 acc.2), hps]

theorem processBatchAux_nodup (artOf : String → Option String)
    (meta : String → Option Metadata) (db : List String) (files : List String) :
    ∀ acc, (songIds acc.2).Nodup →
      (songIds (processBatchAux artOf meta db files acc).2).Nodup := by
  induction files with
  | nil => intro acc h; exact h
  | cons f fs ih =>
    intro acc h
    by_cases hdb : f ∈ db
    · simp only [processBatchAux, if_pos hdb]; exact ih acc h
    · simp only [processBatchAux, if_neg hdb]
      exact ih _ (processAudioFile_nodup artOf f (meta f) acc.1 acc.2 h)

theorem processBatchAux_covers (artOf : String → Option String)
    (meta : String → Option Metadata) (db : List String) (files : List String) :
    ∀ acc, ∀ f ∈ files, ¬ inertMeta (meta f) →
      f ∈ db ∨ f ∈ getAllFilePathsFromDb (processBatchAux artOf meta db files acc).2 := by
  induction files with
  | nil => intro acc f hf; cases hf
  | cons g fs ih =>
    intro acc f hf hni
    rcases List.mem_cons.mp hf with rfl | hmem
    · by_cases hdb : f ∈ db
      · exact Or.inl hdb
      · right
        simp only [processBatchAux, if_neg hdb]
        cases hmd : meta f with
        | none => exact absurd trivial (by rw [hmd] at hni; exact hni)
        | some m =>
          cases htt : jsTruthy m.title with
          | false =>
            rw [hmd] at hni
            exact absurd (by simp [inertMeta, htt]) hni
          | true =>
            obtain ⟨r, hs, hfp, _, _⟩ := processAudioFile_shape artOf f m htt acc.1 acc.2
            obtain ⟨t, h1, _⟩ :=
              processBatchAux_songs artOf meta db fs (processAudioFile artOf f (some m) acc.1 acc.2)
            have hr : r ∈ (processBatchAux artOf meta db fs
                (processAudioFile artOf f (some m) acc.1 acc.2)).2.songs := by
              rw [h1, hs]
              simp
            exact List.mem_map.mpr ⟨r, hr, hfp⟩
    · simp only [processBatchAux]
      exact ih _ f hmem hni

theorem processBatch_id (artOf : String → Option String) (meta : String → Option Metadata)
    (files db : List String) (st : Store)
    (h : ∀ f ∈ files, f ∈ db ∨ inertMeta (meta f)) :
    processBatch artOf meta files db st = st := by
  simp [processBatch, processBatchAux_id artOf meta db files h]

theorem processBatch_songs (artOf : String → Option String)
    (meta : String → Option Metadata) (files db : List String) (st : Store) :
    ∃ t, (processBatch artOf meta files db st).songs = st.songs ++ t ∧
      ∀ r ∈ t, r.filePath ∈ files ∧ ¬ inertMeta (meta r.filePath) :=
  processBatchAux_songs artOf meta db files (([], st))

theorem processBatch_ps (artOf : String → Option String)
    (meta : String → Option Metadata) (files db : List String) (st : Store) :
    (processBatch artOf meta files db st).playlistSongs = st.playlistSongs :=
  processBatchAux_ps artOf meta db files (([], st))

theorem processBatch_nodup (artOf : String → Option String)
    (meta : String → Option Metadata) (files db : List String) (st : Store)
    (h : (songIds st).Nodup) :
    (songIds (processBatch artOf meta files db st)).Nodup :=
  processBatchAux_nodup artOf meta db files (([], st)) h

theorem processBatch_covers (artOf : String → Option String)
    (meta : String → Option Metadata) (files db : List String) (st : Store) :
    ∀ f ∈ files, ¬ inertMeta (meta f) →
      f ∈ db ∨ f ∈ getAllFilePathsFromDb (processBatch artOf meta files db st) :=
  fun f hf hni => processBatchAux_covers artOf meta db files (([], st)) f hf hni

theorem processBatches_id (artOf : String → Option String)
    (meta : String → Option Metadata) (db : List String) (bs : List (List String)) :
    ∀ st, (∀ b ∈ bs, ∀ f ∈ b, f ∈ db ∨ inertMeta (meta f)) →
      processBatches artOf meta db bs st = st := by
  induction bs with
  | nil => intro st _; rfl
  | cons b bs ih =>
    intro st h
    simp only [processBatches,
      processBatch_id artOf meta b db st (h b (List.mem_cons_self b bs))]
    exact ih st (fun b' hb' => h b' (List.mem_cons_of_mem b hb'))

theorem processBatches_songs (artOf : String → Option String)
    (meta : String → Option Metadata) (db : List String) (bs : List (List String)) :
    ∀ st, ∃ t, (processBatches artOf meta db bs st).songs = st.songs ++ t ∧
      ∀ r ∈ t, (∃ b ∈ bs, r.filePath ∈ b) ∧ ¬ inertMeta (meta r.filePath) := by
  induction bs with
  | nil => intro st; exact ⟨[], by simp [processBatches], by simp⟩
  | cons b bs ih =>
    intro st
    obtain ⟨t1, h1, h2⟩ := processBatch_songs artOf meta b db st
    obtain ⟨t2, h3, h4⟩ := ih (processBatch artOf meta b db st)
    refine ⟨t1 ++ t2, ?_, ?_⟩
    · simp only [processBatches, h3, h1, List.append_assoc]
    · intro r hr
      rcases List.mem_append.mp hr with hr | hr
      · exact ⟨⟨b, List.mem_cons_self b bs, (h2 r hr).1⟩, (h2 r hr).2⟩
      · obtain ⟨⟨b', hb', hfb'⟩, hni⟩ := h4 r hr
        exact ⟨⟨b', List.mem_cons_of_mem b hb', hfb'⟩, hni⟩

theorem processBatches_ps (artOf : String → Option String)
    (meta : String → Option Metadata) (db : List String) (bs : List (List String)) :
    ∀ st, (processBatches artOf meta db bs st).playlistSongs = st.playlistSongs := by
  induction bs with
  | nil => intro st; rfl
  | cons b bs ih =>
    intro st
    simp only [processBatches, ih, processBatch_ps]

theorem processBatches_nodup (artOf : String → Option String)
    (meta : String → Option Metadata) (db : List String) (bs : List (List String)) :
    ∀ st, (songIds st).Nodup →
      (songIds (processBatches artOf meta db bs st)).Nodup := by
  induction bs with
  | nil => intro st h; exact h
  | cons b bs ih =>
    intro st h
    exact ih _ (processBatch_nodup artOf meta b db st h)

theorem processBatches_covers (artOf : String → Option String)
    (meta : String → Option Metadata) (db : List String) (bs : List (List String)) :
    ∀ st, ∀ b ∈ bs, ∀ f ∈ b, ¬ inertMeta (meta f) →
      f ∈ db ∨ f ∈ getAllFilePathsFromDb (processBatches artOf meta db bs st) := by
  induction bs with
  | nil => intro st b hb; cases hb
  | cons b0 bs ih =>
    intro st b hb f hf hni
    rcases List.mem_cons.mp hb with rfl | hb
    · rcases processBatch_covers artOf meta b db st f hf hni with hdb | hpath
      · exact Or.inl hdb
      · right
        obtain ⟨t, h1, _⟩ := processBatches_songs artOf meta db bs (processBatch artOf meta b db st)
        obtain ⟨r, hr, hfp⟩ := List.mem_map.mp hpath
        refine List.mem_map.mpr ⟨r, ?_, hfp⟩
        simp only [processBatches, h1]
        exact List.mem_append.mpr (Or.inl hr)
    · exact ih _ b hb f hf hni

/-! Characterization of the orphan-cleanup passes. -/

theorem deleteSongs_albums (ds : List Song) :
    ∀ st, (deleteSongs ds st).albums = st.albums := by
  induction ds with
  | nil => intro st; rfl
  | cons d ds ih => intro st; exact ih _

theorem deleteSongs_songs (ds : List Song) :
    ∀ st, (deleteSongs ds st).songs =
      st.songs.filter (fun r => ds.all (fun d => r.id != d.id)) := by
  induction ds with
  | nil =>
    intro st
    exact (List.filter_eq_self.mpr (fun r _ => by simp)).symm
  | cons d ds ih =>
    intro st
    rw [deleteSongs, ih]
    simp only [deleteSongStep]
    rw [List.filter_filter]
    apply List.filter_congr
    intro r _
    rw [List.all_cons]
    exact Bool.and_comm _ _

theorem deleteSongs_ps (ds : List Song) :
    ∀ st, (deleteSongs ds st).playlistSongs =
      st.playlistSongs.filter (fun r => ds.all (fun d => r.songId != d.id)) := by
  induction ds with
  | nil =>
    intro st
    exact (List.filter_eq_self.mpr (fun r _ => by simp)).symm
  | cons d ds ih =>
    intro st
    rw [deleteSongs, ih]
    simp only [deleteSongStep]
    rw [List.filter_filter]
    apply List.filter_congr
    intro r _
    rw [List.all_cons]
    exact Bool.and_comm _ _

theorem deleteSongs_append (l1 l2 : List Song) :
    ∀ st, deleteSongs (l1 ++ l2) st = deleteSongs l2 (deleteSongs l1 st) := by
  induction l1 with
  | nil => intro st; rfl
  | cons d ds ih => intro st; exact ih _

theorem deleteSongBatches_eq (bs : List (List Song)) :
    ∀ st, deleteSongBatches bs st = deleteSongs bs.flatten st := by
  induction bs with
  | nil => intro st; rfl
  | cons b bs ih =>
    intro st
    rw [deleteSongBatches, ih, List.flatten_cons, deleteSongs_append]

theorem cleanupAlbums_songs (visit : List Album) :
    ∀ st, (cleanupAlbums visit st).songs = st.songs := by
  induction visit with
  | nil => intro st; rfl
  | cons a rest ih =>
    intro st
    rw [cleanupAlbums]
    by_cases he : (st.songs.filter (fun s => s.albumId == a.id)).isEmpty = true
    · rw [if_pos he, ih]
    · rw [if_neg he, ih]

theorem cleanupAlbums_ps (visit : List Album) :
    ∀ st, (cleanupAlbums visit st).playlistSongs = st.playlistSongs := by
  induction visit with
  | nil => intro st; rfl
  | cons a rest ih =>
    intro st
    rw [cleanupAlbums]
    by_cases he : (st.songs.filter (fun s => s.albumId == a.id)).isEmpty = true
    · rw [if_pos he, ih]
    · rw [if_neg he, ih]

theorem cleanupAlbums_albums (visit : List Album) :
    ∀ st, (cleanupAlbums visit st).albums = st.albums.filter
      (fun b => visit.all
        (fun a => !(st.songs.filter (fun s => s.albumId == a.id)).isEmpty ||
          b.id != a.id)) := by
  induction visit with
  | nil =>
    intro st
    exact (List.filter_eq_self.mpr (fun b _ => by simp)).symm
  | cons a rest ih =>
    intro st
    rw [cleanupAlbums]
    by_cases he : (st.songs.filter (fun s => s.albumId == a.id)).isEmpty = true
    · rw [if_pos he, ih]
      rw [List.filter_filter]
      apply List.filter_congr
      intro b _
      simp only [List.all_cons, he, Bool.not_true, Bool.false_or]
      exact Bool.and_comm _ _
    · rw [if_neg he, ih]
      apply List.filter_congr
      intro b _
      simp only [List.all_cons, Bool.not_eq_true] at he ⊢
      simp [he]

theorem cleanup_songs_char (L : List String) (st : Store) :
    (cleanupOrphanedRecords L st).songs = st.songs.filter
      (fun r => (st.songs.filter (fun s => !(L.contains s.filePath))).all
        (fun d => r.id != d.id)) := by
  simp only [cleanupOrphanedRecords]
  rw [cleanupAlbums_songs, deleteSongBatches_eq, chunks_flatten 50 (by omega),
    deleteSongs_songs]

theorem cleanup_ps_char (L : List String) (st : Store) :
    (cleanupOrphanedRecords L st).playlistSongs = st.playlistSongs.filter
      (fun r => (st.songs.filter (fun s => !(L.contains s.filePath))).all
        (fun d => r.songId != d.id)) := by
  simp only [cleanupOrphanedRecords]
  rw [cleanupAlbums_ps, deleteSongBatches_eq, chunks_flatten 50 (by omega),
    deleteSongs_ps]

theorem cleanup_albums_char (L : List String) (st : Store) :
    (cleanupOrphanedRecords L st).albums = st.albums.filter
      (fun b => st.albums.all
        (fun a => !((cleanupOrphanedRecords L st).songs.filter
            (fun s => s.albumId == a.id)).isEmpty ||
          b.id != a.id)) := by
  have halb : (deleteSongBatches
      (chunks 50 (st.songs.filter (fun s => !(L.contains s.filePath)))) st).albums =
      st.albums := by
    rw [deleteSongBatches_eq, deleteSongs_albums]
  simp only [cleanupOrphanedRecords]
  rw [cleanupAlbums_albums, cleanupAlbums_songs, halb]

theorem song_id_inj {st : Store} (h : (songIds st).Nodup) {r d : Song}
    (hr : r ∈ st.songs) (hd : d ∈ st.songs) (hid : r.id = d.id) : r = d :=
  List.inj_on_of_nodup_map h hr hd hid

theorem cleanup_songs_of_nodup (L : List String) (st : Store)
    (h : (songIds st).Nodup) :
    (cleanupOrphanedRecords L st).songs =
      st.songs.filter (fun s => L.contains s.filePath) := by
  rw [cleanup_songs_char]
  apply List.filter_congr
  intro r hr
  cases hin : L.contains r.filePath with
  | true =>
    rw [List.all_eq_true]
    intro d hd
    obtain ⟨hdm, hdc⟩ := List.mem_filter.mp hd
    rw [bne_iff_ne]
    intro hid
    rw [song_id_inj h hr hdm hid] at hin
    simp only [List.contains, List.elem_iff] at hin
    simp [hin] at hdc
  | false =>
    have hrdel : r ∈ st.songs.filter (fun s => !(L.contains s.filePath)) :=
      List.mem_filter.mpr ⟨hr, by simpa using hin⟩
    cases hall : (st.songs.filter (fun s => !(L.contains s.filePath))).all
        (fun d => r.id != d.id) with
    | false => rfl
    | true =>
      have := List.all_eq_true.mp hall r hrdel
      simp at this

theorem cleanup_paths (L : List String) (st : Store) :
    ∀ s ∈ (cleanupOrphanedRecords L st).songs, L.contains s.filePath = true := by
  intro s hs
  rw [cleanup_songs_char] at hs
  obtain ⟨hmem, hall⟩ := List.mem_filter.mp hs
  cases hin : L.contains s.filePath with
  | true => rfl
  | false =>
    have hsdel : s ∈ st.songs.filter (fun r => !(L.contains r.filePath)) :=
      List.mem_filter.mpr ⟨hmem, by simpa using hin⟩
    have := List.all_eq_true.mp hall s hsdel
    simp at this

theorem cleanup_songs_subset (L : List String) (st : Store) :
    ∀ s ∈ (cleanupOrphanedRecords L st).songs, s ∈ st.songs := by
  intro s hs
  rw [cleanup_songs_char] at hs
  exact (List.mem_filter.mp hs).1

theorem cleanup_album_nonempty (L : List String) (st : Store) :
    ∀ a ∈ (cleanupOrphanedRecords L st).albums,
      ((cleanupOrphanedRecords L st).songs.filter
        (fun s => s.albumId == a.id)).isEmpty = false := by
  intro a ha
  rw [cleanup_albums_char] at ha
  obtain ⟨hmem, hall⟩ := List.mem_filter.mp ha
  have := List.all_eq_true.mp hall a hmem
  simpa using this

theorem cleanup_id (L : List String) (st : Store)
    (hs : ∀ s ∈ st.songs, L.contains s.filePath = true)
    (ha : ∀ a ∈ st.albums,
      (st.songs.filter (fun s => s.albumId == a.id)).isEmpty = false) :
    cleanupOrphanedRecords L st = st := by
  have hdel : st.songs.filter (fun s => !(L.contains s.filePath)) = [] :=
    List.filter_eq_nil_iff.mpr (fun s hsm => by simpa using hs s hsm)
  have h1 : (cleanupOrphanedRecords L st).songs = st.songs := by
    rw [cleanup_songs_char, hdel]
    exact List.filter_eq_self.mpr (fun r _ => by simp)
  have h2 : (cleanupOrphanedRecords L st).playlistSongs = st.playlistSongs := by
    rw [cleanup_ps_char, hdel]
    exact List.filter_eq_self.mpr (fun r _ => by simp)
  have h3 : (cleanupOrphanedRecords L st).albums = st.albums := by
    rw [cleanup_albums_char, h1]
    refine List.filter_eq_self.mpr (fun b hb => ?_)
    rw [List.all_eq_true]
    intro a hamem
    rw [ha a hamem]
    simp
  calc cleanupOrphanedRecords L st
      = Store.mk (cleanupOrphanedRecords L st).songs
          (cleanupOrphanedRecords L st).albums
          (cleanupOrphanedRecords L st).playlistSongs := rfl
    _ = Store.mk st.songs st.albums st.playlistSongs := by rw [h1, h2, h3]
    _ = st := rfl

/-! The shallow walk visits a subset of the full walk's files. -/

theorem dirFiles_subset_scan (dir : String) :
    ∀ t : FTree, ∀ x ∈ dirFiles dir t, x ∈ scanEntireLibrary dir t := by
  intro t
  induction t with
  | nil => intro x hx; cases hx
  | file n rest ih =>
    intro x hx
    rcases List.mem_append.mp hx with hx | hx
    · exact List.mem_append.mpr (Or.inl hx)
    · exact List.mem_append.mpr (Or.inr (ih x hx))
  | dir n sub rest ihsub ihrest =>
    intro x hx
    exact List.mem_append.mpr (Or.inr (ihrest x hx))

theorem subdirFiles_subset_scan (dir : String) :
    ∀ t : FTree, ∀ x ∈ subdirFiles dir t, x ∈ scanEntireLibrary dir t := by
  intro t
  induction t with
  | nil => intro x hx; cases hx
  | file n rest ih =>
    intro x hx
    exact List.mem_append.mpr (Or.inr (ih x hx))
  | dir n sub rest ihsub ihrest =>
    intro x hx
    rcases List.mem_append.mp hx with hx | hx
    · exact List.mem_append.mpr (Or.inl (dirFiles_subset_scan (pjoin dir n) sub x hx))
    · exact List.mem_append.mpr (Or.inr (ihrest x hx))

theorem shallow_subset_scan (dir : String) (t : FTree) :
    ∀ x ∈ scanImmediateDirectory dir t, x ∈ scanEntireLibrary dir t := by
  intro x hx
  rcases List.mem_append.mp hx with hx | hx
  · exact dirFiles_subset_scan dir t x hx
  · exact subdirFiles_subset_scan dir t x hx

/-! Invariants established by one `processLibrary` run, and idempotence. -/

theorem contains_iff_mem {α : Type _} [BEq α] [LawfulBEq α] (l : List α) (a : α) :
    l.contains a = true ↔ a ∈ l := by
  simp [List.contains, List.elem_iff]

theorem contains_of_mem {l : List String} {a : String} (h : a ∈ l) :
    l.contains a = true :=
  (contains_iff_mem l a).mpr h

theorem cleanup_keeps_path (L : List String) (σ : Store) (h : (songIds σ).Nodup)
    (f : String) (hf : f ∈ getAllFilePathsFromDb σ) (hfL : f ∈ L) :
    f ∈ getAllFilePathsFromDb (cleanupOrphanedRecords L σ) := by
  obtain ⟨r, hr, hrf⟩ := List.mem_map.mp hf
  refine List.mem_map.mpr ⟨r, ?_, hrf⟩
  rw [cleanup_songs_of_nodup L σ h]
  refine List.mem_filter.mpr ⟨hr, ?_⟩
  rw [hrf]
  exact contains_of_mem hfL

theorem processBatch_paths_mono (artOf : String → Option String)
    (meta : String → Option Metadata) (files db : List String) (st : Store) :
    ∀ f ∈ getAllFilePathsFromDb st,
      f ∈ getAllFilePathsFromDb (processBatch artOf meta files db st) := by
  intro f hf
  obtain ⟨t, h1, _⟩ := processBatch_songs artOf meta files db st
  obtain ⟨r, hr, hrf⟩ := List.mem_map.mp hf
  refine List.mem_map.mpr ⟨r, ?_, hrf⟩
  rw [h1]
  exact List.mem_append.mpr (Or.inl hr)

theorem processBatches_paths_mono (artOf : String → Option String)
    (meta : String → Option Metadata) (db : List String) (bs : List (List String))
    (st : Store) :
    ∀ f ∈ getAllFilePathsFromDb st,
      f ∈ getAllFilePathsFromDb (processBatches artOf meta db bs st) := by
  intro f hf
  obtain ⟨t, h1, _⟩ := processBatches_songs artOf meta db bs st
  obtain ⟨r, hr, hrf⟩ := List.mem_map.mp hf
  refine List.mem_map.mpr ⟨r, ?_, hrf⟩
  rw [h1]
  exact List.mem_append.mpr (Or.inl hr)

theorem processLibraryFull_post (artOf : String → Option String)
    (meta : String → Option Metadata) (allFiles : List String) (st : Store)
    (h : (songIds st).Nodup) :
    (∀ s ∈ (processLibraryFull artOf meta allFiles st).songs, s.filePath ∈ allFiles) ∧
    (∀ a ∈ (processLibraryFull artOf meta allFiles st).albums,
      ((processLibraryFull artOf meta allFiles st).songs.filter
        (fun s => s.albumId == a.id)).isEmpty = false) ∧
    (∀ f ∈ allFiles, ¬ inertMeta (meta f) →
      f ∈ getAllFilePathsFromDb (processLibraryFull artOf meta allFiles st)) := by
  have hdef : processLibraryFull artOf meta allFiles st =
      cleanupOrphanedRecords allFiles
        (processBatches artOf meta (getAllFilePathsFromDb st)
          (chunks 300 allFiles) st) := rfl
  refine ⟨?_, ?_, ?_⟩
  · intro s hs
    rw [hdef] at hs
    exact (contains_iff_mem _ _).mp (cleanup_paths allFiles _ s hs)
  · rw [hdef]
    exact cleanup_album_nonempty allFiles _
  · intro f hf hni
    have hchunk : ∃ b ∈ chunks 300 allFiles, f ∈ b := by
      rw [← List.mem_flatten, chunks_flatten 300 (by omega)]
      exact hf
    obtain ⟨b, hb, hfb⟩ := hchunk
    have hcov := processBatches_covers artOf meta (getAllFilePathsFromDb st)
      (chunks 300 allFiles) st b hb f hfb hni
    have hpre : f ∈ getAllFilePathsFromDb
        (processBatches artOf meta (getAllFilePathsFromDb st)
          (chunks 300 allFiles) st) := by
      rcases hcov with hdb | hp
      · exact processBatches_paths_mono artOf meta _ _ st f hdb
      · exact hp
    rw [hdef]
    exact cleanup_keeps_path allFiles _
      (processBatches_nodup artOf meta _ _ st h) f hpre hf

theorem processLibraryFull_idem (artOf : String → Option String)
    (meta : String → Option Metadata) (allFiles : List String) (st : Store)
    (h : (songIds st).Nodup) :
    processLibraryFull artOf meta allFiles (processLibraryFull artOf meta allFiles st) =
      processLibraryFull artOf meta allFiles st := by
  obtain ⟨h1, h2, h3⟩ := processLibraryFull_post artOf meta allFiles st h
  have hdef2 : processLibraryFull artOf meta allFiles
        (processLibraryFull artOf meta allFiles st) =
      cleanupOrphanedRecords allFiles
        (processBatches artOf meta
          (getAllFilePathsFromDb (processLibraryFull artOf meta allFiles st))
          (chunks 300 allFiles) (processLibraryFull artOf meta allFiles st)) := rfl
  have hbid : processBatches artOf meta
      (getAllFilePathsFromDb (processLibraryFull artOf meta allFiles st))
      (chunks 300 allFiles) (processLibraryFull artOf meta allFiles st) =
      processLibraryFull artOf meta allFiles st := by
    apply processBatches_id
    intro b hb f hfb
    by_cases hni : inertMeta (meta f)
    · exact Or.inr hni
    · exact Or.inl (h3 f (mem_of_mem_chunks (by omega) hb hfb) hni)
  rw [hdef2, hbid]
  exact cleanup_id allFiles _ (fun s hsm => contains_of_mem (h1 s hsm)) h2

theorem processLibraryIncremental_post (artOf : String → Option String)
    (meta : String → Option Metadata) (initialBatch allFiles : List String)
    (st : Store) (h : (songIds st).Nodup)
    (hsub : ∀ f ∈ initialBatch, f ∈ allFiles) :
    (∀ s ∈ (processLibraryIncremental artOf meta initialBatch allFiles st).songs,
      s.filePath ∈ allFiles) ∧
    (∀ a ∈ (processLibraryIncremental artOf meta initialBatch allFiles st).albums,
      ((processLibraryIncremental artOf meta initialBatch allFiles st).songs.filter
        (fun s => s.albumId == a.id)).isEmpty = false) ∧
    (∀ f, (f ∈ initialBatch ∨ f ∈ allFiles.drop initialBatch.length) →
      ¬ inertMeta (meta f) →
      f ∈ getAllFilePathsFromDb
        (processLibraryIncremental artOf meta initialBatch allFiles st)) := by
  have hdef : processLibraryIncremental artOf meta initialBatch allFiles st =
      cleanupOrphanedRecords allFiles
        (processBatches artOf meta (getAllFilePathsFromDb st)
          (chunks 100 (allFiles.drop initialBatch.length))
          (processBatch artOf meta initialBatch (getAllFilePathsFromDb st) st)) := rfl
  have hnodup2 : (songIds (processBatches artOf meta (getAllFilePathsFromDb st)
      (chunks 100 (allFiles.drop initialBatch.length))
      (processBatch artOf meta initialBatch (getAllFilePathsFromDb st) st))).Nodup :=
    processBatches_nodup artOf meta _ _ _
      (processBatch_nodup artOf meta _ _ st h)
  refine ⟨?_, ?_, ?_⟩
  · intro s hs
    rw [hdef] at hs
    exact (contains_iff_mem _ _).mp (cleanup_paths allFiles _ s hs)
  · rw [hdef]
    exact cleanup_album_nonempty allFiles _
  · intro f hf hni
    have hfall : f ∈ allFiles := by
      rcases hf with hf | hf
      · exact hsub f hf
      · exact List.drop_subset _ _ hf
    have hpre : f ∈ getAllFilePathsFromDb
        (processBatches artOf meta (getAllFilePathsFromDb st)
          (chunks 100 (allFiles.drop initialBatch.length))
          (processBatch artOf meta initialBatch (getAllFilePathsFromDb st) st)) := by
      rcases hf with hf | hf
      · rcases processBatch_covers artOf meta initialBatch
            (getAllFilePathsFromDb st) st f hf hni with hdb | hp
        · exact processBatches_paths_mono artOf meta _ _ _ f
            (processBatch_paths_mono artOf meta _ _ st f hdb)
        · exact processBatches_paths_mono artOf meta _ _ _ f hp
      · have hchunk : ∃ b ∈ chunks 100 (allFiles.drop initialBatch.length), f ∈ b := by
          rw [← List.mem_flatten, chunks_flatten 100 (by omega)]
          exact hf
        obtain ⟨b, hb, hfb⟩ := hchunk
        rcases processBatches_covers artOf meta (getAllFilePathsFromDb st)
            (chunks 100 (allFiles.drop initialBatch.length))
            (processBatch artOf meta initialBatch (getAllFilePathsFromDb st) st)
            b hb f hfb hni with hdb | hp
        · exact processBatches_paths_mono artOf meta _ _ _ f
            (processBatch_paths_mono artOf meta _ _ st f hdb)
        · exact hp
    rw [hdef]
    exact cleanup_keeps_path allFiles _ hnodup2 f hpre hfall

theorem processLibraryIncremental_idem (artOf : String → Option String)
    (meta : String → Option Metadata) (initialBatch allFiles : List String)
    (st : Store) (h : (songIds st).Nodup)
    (hsub : ∀ f ∈ initialBatch, f ∈ allFiles) :
    processLibraryIncremental artOf meta initialBatch allFiles
        (processLibraryIncremental artOf meta initialBatch allFiles st) =
      processLibraryIncremental artOf meta initialBatch allFiles st := by
  obtain ⟨h1, h2, h3⟩ :=
    processLibraryIncremental_post artOf meta initialBatch allFiles st h hsub
  have hshallow : processBatch artOf meta initialBatch
      (getAllFilePathsFromDb (processLibraryIncremental artOf meta initialBatch allFiles st))
      (processLibraryIncremental artOf meta initialBatch allFiles st) =
      processLibraryIncremental artOf meta initialBatch allFiles st := by
    apply processBatch_id
    intro f hf
    by_cases hni : inertMeta (meta f)
    · exact Or.inr hni
    · exact Or.inl (h3 f (Or.inl hf) hni)
  have hdef2 : processLibraryIncremental artOf meta initialBatch allFiles
        (processLibraryIncremental artOf meta initialBatch allFiles st) =
      cleanupOrphanedRecords allFiles
        (processBatches artOf meta
          (getAllFilePathsFromDb
            (processLibraryIncremental artOf meta initialBatch allFiles st))
          (chunks 100 (allFiles.drop initialBatch.length))
          (processBatch artOf meta initialBatch
            (getAllFilePathsFromDb
              (processLibraryIncremental artOf meta initialBatch allFiles st))
            (processLibraryIncremental artOf meta initialBatch allFiles st))) := rfl
  have hbid : processBatches artOf meta
      (getAllFilePathsFromDb
        (processLibraryIncremental artOf meta initialBatch allFiles st))
      (chunks 100 (allFiles.drop initialBatch.length))
      (processLibraryIncremental artOf meta initialBatch allFiles st) =
      processLibraryIncremental artOf meta initialBatch allFiles st := by
    apply processBatches_id
    intro b hb f hfb
    by_cases hni : inertMeta (meta f)
    · exact Or.inr hni
    · exact Or.inl (h3 f (Or.inr (mem_of_mem_chunks (by omega) hb hfb)) hni)
  rw [hdef2, hshallow, hbid]
  exact cleanup_id allFiles _ (fun s hsm => contains_of_mem (h1 s hsm)) h2

theorem processLibraryFull_no_new (artOf : String → Option String)
    (meta : String → Option Metadata) (allFiles : List String) (st : Store)
    (p : String) (hp : ∀ s ∈ st.songs, s.filePath ≠ p)
    (hin : inertMeta (meta p)) :
    ∀ s ∈ (processLibraryFull artOf meta allFiles st).songs, s.filePath ≠ p := by
  have hdef : processLibraryFull artOf meta allFiles st =
      cleanupOrphanedRecords allFiles
        (processBatches artOf meta (getAllFilePathsFromDb st)
          (chunks 300 allFiles) st) := rfl
  intro s hs
  rw [hdef] at hs
  have hs1 := cleanup_songs_subset allFiles _ s hs
  obtain ⟨t, h1, h2⟩ := processBatches_songs artOf meta
    (getAllFilePathsFromDb st) (chunks 300 allFiles) st
  rw [h1] at hs1
  rcases List.mem_append.mp hs1 with hold | hnew
  · exact hp s hold
  · intro hfp
    exact (h2 s hnew).2 (by rw [hfp]; exact hin)

theorem processLibraryIncremental_no_new (artOf : String → Option String)
    (meta : String → Option Metadata) (initialBatch allFiles : List String)
    (st : Store) (p : String) (hp : ∀ s ∈ st.songs, s.filePath ≠ p)
    (hin : inertMeta (meta p)) :
    ∀ s ∈ (processLibraryIncremental artOf meta initialBatch allFiles st).songs,
      s.filePath ≠ p := by
  have hdef : processLibraryIncremental artOf meta initialBatch allFiles st =
      cleanupOrphanedRecords allFiles
        (processBatches artOf meta (getAllFilePathsFromDb st)
          (chunks 100 (allFiles.drop initialBatch.length))
          (processBatch artOf meta initialBatch (getAllFilePathsFromDb st) st)) := rfl
  intro s hs
  rw [hdef] at hs
  have hs1 := cleanup_songs_subset allFiles _ s hs
  obtain ⟨t2, h1, h2⟩ := processBatches_songs artOf meta
    (getAllFilePathsFromDb st) (chunks 100 (allFiles.drop initialBatch.length))
    (processBatch artOf meta initialBatch (getAllFilePathsFromDb st) st)
  rw [h1] at hs1
  rcases List.mem_append.mp hs1 with hmid | hnew
  · obtain ⟨t1, h3, h4⟩ := processBatch_songs artOf meta initialBatch
      (getAllFilePathsFromDb st) st
    rw [h3] at hmid
    rcases List.mem_append.mp hmid with hold | hnew1
    · exact hp s hold
    · intro hfp
      exact (h4 s hnew1).2 (by rw [hfp]; exact hin)
  · intro hfp
    exact (h2 s hnew).2 (by rw [hfp]; exact hin)

theorem album_id_inj {st : Store} (h : (albumIds st).Nodup) {a b : Album}
    (ha : a ∈ st.albums) (hb : b ∈ st.albums) (hid : a.id = b.id) : a = b :=
  List.inj_on_of_nodup_map h ha hb hid

/-! Claim theorems. -/

/-- C1 (code bug evaluation): on a library whose full walk lists the
nested file `A/B/b.mp3` before the root file `z.mp3`, one incremental
reconcile of an empty store inserts two Song rows for `z.mp3` — even
though `z.mp3` was processed by the shallow pass — and never processes
`A/B/b.mp3` at all, because the background scan skips the first
`initialBatch.length` entries of the full walk by position rather than
skipping the shallow pass's paths. -/
theorem c1_positional_skip_eval :
    scanImmediateDirectory "/r" exTree = ["/r/z.mp3"] ∧
    scanEntireLibrary "/r" exTree = ["/r/A/B/b.mp3", "/r/z.mp3"] ∧
    ((reconcileIncremental noArt exMeta "/r" exTree emptyStore).songs.filter
      (fun s => s.filePath == "/r/z.mp3")).length = 2 ∧
    ((reconcileIncremental noArt exMeta "/r" exTree emptyStore).songs.filter
      (fun s => s.filePath == "/r/A/B/b.mp3")).length = 0 := by
  decide

/-- C2: reconcile is idempotent.  For every music folder and store state
whose song ids are distinct (the `id INTEGER PRIMARY KEY` invariant),
running reconcile a second time with no filesystem changes leaves the
store exactly as the first run left it — so the second run inserts no
Song or Album row and deletes no row — in both the non-incremental and
the incremental mode, file-path equality being the sole identity check. -/
theorem c2_reconcile_idempotent (artOf : String → Option String)
    (meta : String → Option Metadata) (root : String) (t : FTree) (st : Store)
    (h : (songIds st).Nodup) :
    reconcileFull artOf meta root t (reconcileFull artOf meta root t st) =
      reconcileFull artOf meta root t st ∧
    reconcileIncremental artOf meta root t
        (reconcileIncremental artOf meta root t st) =
      reconcileIncremental artOf meta root t st :=
  ⟨processLibraryFull_idem artOf meta (scanEntireLibrary root t) st h,
   processLibraryIncremental_idem artOf meta (scanImmediateDirectory root t)
     (scanEntireLibrary root t) st h (shallow_subset_scan root t)⟩

theorem c2_reconcile_idempotent_witness :
    (songIds emptyStore).Nodup ∧
    (reconcileFull noArt exMeta "/r" exTree
        (reconcileFull noArt exMeta "/r" exTree emptyStore) =
      reconcileFull noArt exMeta "/r" exTree emptyStore ∧
    reconcileIncremental noArt exMeta "/r" exTree
        (reconcileIncremental noArt exMeta "/r" exTree emptyStore) =
      reconcileIncremental noArt exMeta "/r" exTree emptyStore) :=
  ⟨by decide, c2_reconcile_idempotent noArt exMeta "/r" exTree emptyStore (by decide)⟩

/-- C4: a file whose parsed metadata lacks a title tag is never indexed:
processing it leaves the store (songs and albums alike) entirely
unchanged, and over any number of repeated scans — incremental or not —
no Song row with its path ever appears, provided none existed before.
Title is the only metadata field `processAudioFile` requires. -/
theorem c4_no_title_never_indexed (artOf : String → Option String)
    (meta : String → Option Metadata) (root : String) (t : FTree) (st : Store)
    (p : String) (m : Metadata) (hm : meta p = some m) (ht : m.title = none)
    (hp : ∀ s ∈ st.songs, s.filePath ≠ p) :
    (∀ cache σ, processAudioFile artOf p (meta p) cache σ = (cache, σ)) ∧
    (∀ n, ∀ s ∈ ((fun σ => reconcileFull artOf meta root t σ)^[n] st).songs,
      s.filePath ≠ p) ∧
    (∀ n, ∀ s ∈ ((fun σ => reconcileIncremental artOf meta root t σ)^[n] st).songs,
      s.filePath ≠ p) := by
  have hin : inertMeta (meta p) := by
    rw [hm]
    simp [inertMeta, jsTruthy, ht]
  refine ⟨fun cache σ => processAudioFile_inert artOf p (meta p) hin cache σ, ?_, ?_⟩
  · intro n
    induction n with
    | zero => simpa using hp
    | succ k ih =>
      rw [Function.iterate_succ_apply']
      exact processLibraryFull_no_new artOf meta (scanEntireLibrary root t) _ p ih hin
  · intro n
    induction n with
    | zero => simpa using hp
    | succ k ih =>
      rw [Function.iterate_succ_apply']
      exact processLibraryIncremental_no_new artOf meta
        (scanImmediateDirectory root t) (scanEntireLibrary root t) _ p ih hin

theorem c4_no_title_never_indexed_witness :
    (exMetaNoTitle "/r/n.mp3" = some ⟨none, some "A", some "L", none, none, 0⟩ ∧
      (⟨none, some "A", some "L", none, none, 0⟩ : Metadata).title = none ∧
      (∀ s ∈ emptyStore.songs, s.filePath ≠ "/r/n.mp3")) ∧
    ((∀ cache σ, processAudioFile noArt "/r/n.mp3" (exMetaNoTitle "/r/n.mp3") cache σ =
        (cache, σ)) ∧
    (∀ n, ∀ s ∈ ((fun σ => reconcileFull noArt exMetaNoTitle "/r" exTree σ)^[n]
        emptyStore).songs, s.filePath ≠ "/r/n.mp3") ∧
    (∀ n, ∀ s ∈ ((fun σ => reconcileIncremental noArt exMetaNoTitle "/r" exTree σ)^[n]
        emptyStore).songs, s.filePath ≠ "/r/n.mp3")) :=
  ⟨⟨by decide, rfl, by simp [emptyStore]⟩,
   c4_no_title_never_indexed noArt exMetaNoTitle "/r" exTree emptyStore "/r/n.mp3"
     ⟨none, some "A", some "L", none, none, 0⟩ (by decide) rfl (by simp [emptyStore])⟩

/-- C3: after orphan cleanup (whose deletions the definition issues in
transactional batches of 50 via `chunks 50`), exactly the stored Songs
whose file path is absent from the walked path set are deleted; a
PlaylistSong row is deleted exactly when its song id belongs to a deleted
song; and exactly the Albums with zero remaining songs are deleted.  The
id-distinctness hypotheses are the `INTEGER PRIMARY KEY` invariants. -/
theorem c3_cleanup_orphans (L : List String) (st : Store)
    (hs : (songIds st).Nodup) (ha : (albumIds st).Nodup) :
    (cleanupOrphanedRecords L st).songs =
      st.songs.filter (fun s => L.contains s.filePath) ∧
    (cleanupOrphanedRecords L st).playlistSongs =
      st.playlistSongs.filter (fun r =>
        !((st.songs.filter (fun s => !(L.contains s.filePath))).map
          (fun s => s.id)).contains r.songId) ∧
    (cleanupOrphanedRecords L st).albums =
      st.albums.filter (fun a =>
        !((cleanupOrphanedRecords L st).songs.filter
          (fun s => s.albumId == a.id)).isEmpty) := by
  refine ⟨cleanup_songs_of_nodup L st hs, ?_, ?_⟩
  · rw [cleanup_ps_char]
    apply List.filter_congr
    intro r _
    cases hc : ((st.songs.filter (fun s => !(L.contains s.filePath))).map
        (fun s => s.id)).contains r.songId with
    | true =>
      obtain ⟨d, hd, hdid⟩ := List.mem_map.mp ((contains_iff_mem _ _).mp hc)
      cases hall : (st.songs.filter (fun s => !(L.contains s.filePath))).all
          (fun d => r.songId != d.id) with
      | false => rfl
      | true =>
        have := List.all_eq_true.mp hall d hd
        rw [bne_iff_ne] at this
        exact absurd hdid.symm this
    | false =>
      rw [Bool.not_false, List.all_eq_true]
      intro d hd
      rw [bne_iff_ne]
      intro hid
      have : d.id ∈ (st.songs.filter (fun s => !(L.contains s.filePath))).map
          (fun s => s.id) := List.mem_map.mpr ⟨d, hd, rfl⟩
      rw [← contains_iff_mem, ← hid, hc] at this
      cases this
  · rw [cleanup_albums_char]
    apply List.filter_congr
    intro b hb
    cases hne : ((cleanupOrphanedRecords L st).songs.filter
        (fun s => s.albumId == b.id)).isEmpty with
    | true =>
      cases hall : st.albums.all (fun a =>
          !((cleanupOrphanedRecords L st).songs.filter
            (fun s => s.albumId == a.id)).isEmpty || b.id != a.id) with
      | false => simp [hne]
      | true =>
        have := List.all_eq_true.mp hall b hb
        rw [hne] at this
        simp at this
    | false =>
      rw [Bool.not_false, List.all_eq_true]
      intro a hamem
      by_cases hid : b.id = a.id
      · rw [album_id_inj ha hamem hb hid.symm, hne]
        simp
      · simp [bne_iff_ne, hid]

theorem c3_cleanup_orphans_witness :
    ((songIds (Store.mk
        [⟨1, "/a", "s1", "x", 0, 1⟩, ⟨2, "/b", "s2", "x", 0, 2⟩]
        [⟨1, "A1", "x", none, none⟩, ⟨2, "A2", "x", none, none⟩]
        [⟨1, 1⟩, ⟨1, 2⟩])).Nodup ∧
      (albumIds (Store.mk
        [⟨1, "/a", "s1", "x", 0, 1⟩, ⟨2, "/b", "s2", "x", 0, 2⟩]
        [⟨1, "A1", "x", none, none⟩, ⟨2, "A2", "x", none, none⟩]
        [⟨1, 1⟩, ⟨1, 2⟩])).Nodup) ∧
    ((cleanupOrphanedRecords ["/a"] (Store.mk
        [⟨1, "/a", "s1", "x", 0, 1⟩, ⟨2, "/b", "s2", "x", 0, 2⟩]
        [⟨1, "A1", "x", none, none⟩, ⟨2, "A2", "x", none, none⟩]
        [⟨1, 1⟩, ⟨1, 2⟩])).songs =
      (Store.mk
        [⟨1, "/a", "s1", "x", 0, 1⟩, ⟨2, "/b", "s2", "x", 0, 2⟩]
        [⟨1, "A1", "x", none, none⟩, ⟨2, "A2", "x", none, none⟩]
        [⟨1, 1⟩, ⟨1, 2⟩]).songs.filter (fun s => (["/a"] : List String).contains s.filePath) ∧
    (cleanupOrphanedRecords ["/a"] (Store.mk
        [⟨1, "/a", "s1", "x", 0, 1⟩, ⟨2, "/b", "s2", "x", 0, 2⟩]
        [⟨1, "A1", "x", none, none⟩, ⟨2, "A2", "x", none, none⟩]
        [⟨1, 1⟩, ⟨1, 2⟩])).playlistSongs =
      (Store.mk
        [⟨1, "/a", "s1", "x", 0, 1⟩, ⟨2, "/b", "s2", "x", 0, 2⟩]
        [⟨1, "A1", "x", none, none⟩, ⟨2, "A2", "x", none, none⟩]
        [⟨1, 1⟩, ⟨1, 2⟩]).playlistSongs.filter (fun r =>
          !(((Store.mk
            [⟨1, "/a", "s1", "x", 0, 1⟩, ⟨2, "/b", "s2", "x", 0, 2⟩]
            [⟨1, "A1", "x", none, none⟩, ⟨2, "A2", "x", none, none⟩]
            [⟨1, 1⟩, ⟨1, 2⟩]).songs.filter
              (fun s => !((["/a"] : List String).contains s.filePath))).map
            (fun s => s.id)).contains r.songId) ∧
    (cleanupOrphanedRecords ["/a"] (Store.mk
        [⟨1, "/a", "s1", "x", 0, 1⟩, ⟨2, "/b", "s2", "x", 0, 2⟩]
        [⟨1, "A1", "x", none, none⟩, ⟨2, "A2", "x", none, none⟩]
        [⟨1, 1⟩, ⟨1, 2⟩])).albums =
      (Store.mk
        [⟨1, "/a", "s1", "x", 0, 1⟩, ⟨2, "/b", "s2", "x", 0, 2⟩]
        [⟨1, "A1", "x", none, none⟩, ⟨2, "A2", "x", none, none⟩]
        [⟨1, 1⟩, ⟨1, 2⟩]).albums.filter (fun a =>
          !((cleanupOrphanedRecords ["/a"] (Store.mk
            [⟨1, "/a", "s1", "x", 0, 1⟩, ⟨2, "/b", "s2", "x", 0, 2⟩]
            [⟨1, "A1", "x", none, none⟩, ⟨2, "A2", "x", none, none⟩]
            [⟨1, 1⟩, ⟨1, 2⟩])).songs.filter
              (fun s => s.albumId == a.id)).isEmpty)) :=
  ⟨⟨by decide, by decide⟩,
   c3_cleanup_orphans ["/a"] (Store.mk
      [⟨1, "/a", "s1", "x", 0, 1⟩, ⟨2, "/b", "s2", "x", 0, 2⟩]
      [⟨1, "A1", "x", none, none⟩, ⟨2, "A2", "x", none, none⟩]
      [⟨1, 1⟩, ⟨1, 2⟩]) (by decide) (by decide)⟩

/-- C7: adding a song to a playlist is a soft upsert: when the
`(playlistId, songId)` membership row already exists the call performs no
insert and returns `false` (a soft "already exists" result rather than an
error); when it is absent exactly one membership row is inserted and the
call returns `true`. -/
theorem c7_addSongToPlaylist_soft (playlistId songId : Nat) (rows : List PlaylistSong) :
    ((∃ r ∈ rows, r.playlistId = playlistId ∧ r.songId = songId) →
      addSongToPlaylist playlistId songId rows = (false, rows)) ∧
    ((¬ ∃ r ∈ rows, r.playlistId = playlistId ∧ r.songId = songId) →
      addSongToPlaylist playlistId songId rows =
        (true, rows ++ [⟨playlistId, songId⟩])) := by
  constructor
  · intro hex
    simp only [addSongToPlaylist]
    split
    · rfl
    · rename_i hnone
      exfalso
      obtain ⟨r, hr, h1, h2⟩ := hex
      have := List.find?_eq_none.mp hnone r hr
      simp [h1, h2] at this
  · intro hnex
    simp only [addSongToPlaylist]
    split
    · rename_i r hfind
      exfalso
      have hr := List.mem_of_find?_eq_some hfind
      have hp := List.find?_some hfind
      simp only [decide_eq_true_eq] at hp
      exact hnex ⟨r, hr, hp⟩
    · rfl

theorem c7_addSongToPlaylist_soft_witness :
    ((∃ r ∈ [(⟨1, 2⟩ : PlaylistSong)], r.playlistId = 1 ∧ r.songId = 2) ∧
      addSongToPlaylist 1 2 [⟨1, 2⟩] = (false, [⟨1, 2⟩])) ∧
    ((¬ ∃ r ∈ [(⟨1, 2⟩ : PlaylistSong)], r.playlistId = 1 ∧ r.songId = 3) ∧
      addSongToPlaylist 1 3 [⟨1, 2⟩] = (true, [⟨1, 2⟩, ⟨1, 3⟩])) :=
  ⟨⟨by decide, (c7_addSongToPlaylist_soft 1 2 [⟨1, 2⟩]).1 (by decide)⟩,
   ⟨by decide, (c7_addSongToPlaylist_soft 1 3 [⟨1, 2⟩]).2 (by decide)⟩⟩

/-- C9: `addToFavourites` is a toggle on the implicit Favourites playlist
(id 1): when no `(1, songId)` row exists the call appends exactly that
row, when one exists the call deletes every matching row, and two
consecutive calls restore the original membership relation. -/
theorem c9_addToFavourites_toggle (songId : Nat) (rows : List PlaylistSong) :
    ((¬ ∃ r ∈ rows, r.playlistId = 1 ∧ r.songId = songId) →
      addToFavourites songId rows = rows ++ [⟨1, songId⟩]) ∧
    ((∃ r ∈ rows, r.playlistId = 1 ∧ r.songId = songId) →
      addToFavourites songId rows =
        rows.filter (fun ps => !decide (ps.playlistId = 1 ∧ ps.songId = songId))) ∧
    (∀ p s, (⟨p, s⟩ : PlaylistSong) ∈
        addToFavourites songId (addToFavourites songId rows) ↔
      (⟨p, s⟩ : PlaylistSong) ∈ rows) := by
  have habs : ∀ l : List PlaylistSong,
      (¬ ∃ r ∈ l, r.playlistId = 1 ∧ r.songId = songId) →
      addToFavourites songId l = l ++ [⟨1, songId⟩] := by
    intro l hnex
    simp only [addToFavourites]
    split
    · rfl
    · rename_i r hfind
      exfalso
      have hr := List.mem_of_find?_eq_some hfind
      have hp := List.find?_some hfind
      simp only [decide_eq_true_eq] at hp
      exact hnex ⟨r, hr, hp⟩
  have hpres : ∀ l : List PlaylistSong,
      (∃ r ∈ l, r.playlistId = 1 ∧ r.songId = songId) →
      addToFavourites songId l =
        l.filter (fun ps => !decide (ps.playlistId = 1 ∧ ps.songId = songId)) := by
    intro l hex
    simp only [addToFavourites]
    split
    · rename_i hnone
      exfalso
      obtain ⟨r, hr, h1, h2⟩ := hex
      have := List.find?_eq_none.mp hnone r hr
      simp [h1, h2] at this
    · rfl
  refine ⟨habs rows, hpres rows, ?_⟩
  intro p s
  by_cases hex : ∃ r ∈ rows, r.playlistId = 1 ∧ r.songId = songId
  · rw [hpres rows hex]
    have hnone : ¬ ∃ r ∈ rows.filter
        (fun ps => !decide (ps.playlistId = 1 ∧ ps.songId = songId)),
        r.playlistId = 1 ∧ r.songId = songId := by
      rintro ⟨r, hr, h1, h2⟩
      have := (List.mem_filter.mp hr).2
      simp [h1, h2] at this
    rw [habs _ hnone]
    simp only [List.mem_append, List.mem_filter, List.mem_singleton]
    constructor
    · rintro (⟨hmem, _⟩ | heq)
      · exact hmem
      · obtain ⟨r, hr, h1, h2⟩ := hex
        have hreq : r = ⟨1, songId⟩ := by
          cases r
          simp only [PlaylistSong.mk.injEq]
          exact ⟨h1, h2⟩
        rw [heq, ← hreq]
        exact hr
    · intro hmem
      by_cases hpq : p = 1 ∧ s = songId
      · right
        rw [hpq.1, hpq.2]
      · left
        refine ⟨hmem, ?_⟩
        simp only [Bool.not_eq_true', decide_eq_false_iff_not]
        exact hpq
  · rw [habs rows hex]
    have hsome : ∃ r ∈ rows ++ [(⟨1, songId⟩ : PlaylistSong)],
        r.playlistId = 1 ∧ r.songId = songId :=
      ⟨⟨1, songId⟩, List.mem_append.mpr (Or.inr (List.mem_singleton.mpr rfl)), rfl, rfl⟩
    rw [hpres _ hsome, List.filter_append]
    have h1 : rows.filter
        (fun ps => !decide (ps.playlistId = 1 ∧ ps.songId = songId)) = rows := by
      refine List.filter_eq_self.mpr (fun r hr => ?_)
      simp only [Bool.not_eq_true', decide_eq_false_iff_not]
      intro hcon
      exact hex ⟨r, hr, hcon⟩
    have h2 : ([(⟨1, songId⟩ : PlaylistSong)]).filter
        (fun ps => !decide (ps.playlistId = 1 ∧ ps.songId = songId)) = [] := by
      simp
    rw [h1, h2, List.append_nil]

theorem c9_addToFavourites_toggle_witness :
    ((¬ ∃ r ∈ [(⟨2, 5⟩ : PlaylistSong)], r.playlistId = 1 ∧ r.songId = 5) ∧
      addToFavourites 5 [⟨2, 5⟩] = [⟨2, 5⟩, ⟨1, 5⟩]) ∧
    ((∃ r ∈ [(⟨1, 5⟩ : PlaylistSong), ⟨2, 5⟩], r.playlistId = 1 ∧ r.songId = 5) ∧
      addToFavourites 5 [⟨1, 5⟩, ⟨2, 5⟩] =
        ([(⟨1, 5⟩ : PlaylistSong), ⟨2, 5⟩]).filter
          (fun ps => !decide (ps.playlistId = 1 ∧ ps.songId = 5))) ∧
    (∀ p s, (⟨p, s⟩ : PlaylistSong) ∈
        addToFavourites 5 (addToFavourites 5 [⟨2, 5⟩]) ↔
      (⟨p, s⟩ : PlaylistSong) ∈ [(⟨2, 5⟩ : PlaylistSong)]) :=
  ⟨⟨by decide, (c9_addToFavourites_toggle 5 [⟨2, 5⟩]).1 (by decide)⟩,
   ⟨by decide, (c9_addToFavourites_toggle 5 [⟨1, 5⟩, ⟨2, 5⟩]).2.1 (by decide)⟩,
   (c9_addToFavourites_toggle 5 [⟨2, 5⟩]).2.2⟩

/-! Album-art idempotence. -/

theorem processAlbumArt_idem (md5 : String → String)
    (stat : String → Option ImageStat) (imagePath : String) (s : ArtState) :
    processAlbumArt md5 stat imagePath
        (processAlbumArt md5 stat imagePath s).state =
      ⟨(processAlbumArt md5 stat imagePath s).result,
        (processAlbumArt md5 stat imagePath s).state, false⟩ := by
  simp only [processAlbumArt]
  cases hstat : stat imagePath with
  | none => rfl
  | some stt =>
    by_cases hmem : (ART_DIR ++ "/" ++
        md5 (imagePath ++ "-" ++ toString stt.size ++ "-" ++ toString stt.mtimeMs) ++
        "." ++ (extname imagePath).drop 1) ∈ s.artFiles
    · simp [hmem]
    · simp only [if_neg hmem]
      simp [List.mem_cons]

theorem findFirstImageInDirectory_stable (listing : String → List DirEnt)
    (cache : List (String × Option String)) (dir : String) :
    findFirstImageInDirectory listing
        (findFirstImageInDirectory listing cache dir).2 dir =
      ((findFirstImageInDirectory listing cache dir).1,
       (findFirstImageInDirectory listing cache dir).2) := by
  simp only [findFirstImageInDirectory]
  cases hlook : (cache.find? (fun e => e.1 == dir)).map (fun e => e.2) with
  | some v => simp [hlook]
  | none =>
    cases hfind : (listing dir).find?
        (fun e => e.isFile && imageExtensions.contains (strToLower (extname e.name))) with
    | some e => simp
    | none => simp

/-- C6: album-art resolution is idempotent.  Resolving art a second time
for the same folder, with the folder's listing and the image file's stat
unchanged, returns the same cached on-disk path, performs no file write
(the destination path already exists in the art cache), and leaves both
the per-session folder memo and the art directory unchanged. -/
theorem c6_art_resolution_idempotent (md5 : String → String)
    (stat : String → Option ImageStat) (listing : String → List DirEnt)
    (cache : List (String × Option String)) (dir : String) (s : ArtState) :
    resolveFolderArt md5 stat listing
        (resolveFolderArt md5 stat listing cache dir s).images dir
        (resolveFolderArt md5 stat listing cache dir s).art =
      ⟨(resolveFolderArt md5 stat listing cache dir s).result,
       (resolveFolderArt md5 stat listing cache dir s).images,
       (resolveFolderArt md5 stat listing cache dir s).art,
       false⟩ := by
  simp only [resolveFolderArt]
  have hstable := findFirstImageInDirectory_stable listing cache dir
  cases hfind : findFirstImageInDirectory listing cache dir with
  | mk v cache' =>
    rw [hfind] at hstable
    cases v with
    | none =>
      simp only
      rw [hstable]
    | some imagePath =>
      simp only
      rw [hstable]
      simp only
      rw [processAlbumArt_idem md5 stat imagePath s]

/-! Lemmas about the stable-sort model `sortCmp`. -/

theorem insertCmp_perm {α : Type _} (c : α → α → Int) (x : α) :
    ∀ s : List α, (insertCmp c x s).Perm (x :: s) := by
  intro s
  induction s with
  | nil => exact List.Perm.refl _
  | cons y ys ih =>
    simp only [insertCmp]
    by_cases h : c x y < 0
    · rw [if_pos h]
    · rw [if_neg h]
      exact (ih.cons y).trans (List.Perm.swap x y ys)

theorem sortCmp_append_single {α : Type _} (c : α → α → Int) (l : List α) (x : α) :
    sortCmp c (l ++ [x]) = insertCmp c x (sortCmp c l) := by
  simp [sortCmp, List.foldl_append]

theorem sortCmp_perm {α : Type _} (c : α → α → Int) (l : List α) :
    (sortCmp c l).Perm l := by
  induction l using List.reverseRecOn with
  | nil => exact List.Perm.refl _
  | append_singleton l x ih =>
    rw [sortCmp_append_single]
    exact ((insertCmp_perm c x (sortCmp c l)).trans (ih.cons x)).trans
      (List.perm_append_singleton x l).symm

theorem insertCmp_all_ge {α : Type _} (c : α → α → Int) (x : α) :
    ∀ s : List α, (∀ y ∈ s, ¬ c x y < 0) → insertCmp c x s = s ++ [x] := by
  intro s
  induction s with
  | nil => intro _; rfl
  | cons y ys ih =>
    intro h
    simp only [insertCmp, if_neg (h y (List.mem_cons_self y ys)), List.cons_append]
    rw [ih (fun z hz => h z (List.mem_cons_of_mem y hz))]

theorem insertCmp_before_last {α : Type _} (c : α → α → Int) (x yl : α)
    (h : c x yl < 0) :
    ∀ t : List α, insertCmp c x (t ++ [yl]) = insertCmp c x t ++ [yl] := by
  intro t
  induction t with
  | nil => simp [insertCmp, if_pos h]
  | cons z t ih =>
    simp only [List.cons_append, insertCmp]
    by_cases hz : c x z < 0
    · rw [if_pos hz, if_pos hz]
      rfl
    · rw [if_neg hz, if_neg hz]
      show z :: insertCmp c x (t ++ [yl]) = z :: insertCmp c x t ++ [yl]
      rw [ih]
      rfl

theorem insertCmp_sorted {α : Type _} (c : α → α → Int)
    (htrans : ∀ a b d, c a b < 0 → c b d < 0 → c a d < 0)
    (hanti : ∀ a b, c b a = -c a b) (x : α) :
    ∀ s : List α, s.Pairwise (fun a b => c a b < 0) → (∀ y ∈ s, c x y ≠ 0) →
      (insertCmp c x s).Pairwise (fun a b => c a b < 0) := by
  intro s
  induction s with
  | nil => intro _ _; exact List.pairwise_singleton _ _
  | cons y ys ih =>
    intro hs hne
    rw [List.pairwise_cons] at hs
    obtain ⟨hy, hys⟩ := hs
    simp only [insertCmp]
    by_cases hxy : c x y < 0
    · rw [if_pos hxy, List.pairwise_cons]
      refine ⟨?_, List.pairwise_cons.mpr ⟨hy, hys⟩⟩
      intro z hz
      rcases List.mem_cons.mp hz with rfl | hz
      · exact hxy
      · exact htrans x y z hxy (hy z hz)
    · rw [if_neg hxy, List.pairwise_cons]
      constructor
      · intro z hz
        have hz' := (insertCmp_perm c x ys).mem_iff.mp hz
        rcases List.mem_cons.mp hz' with rfl | hz'
        · have h0 := hne y (List.mem_cons_self y ys)
          have ha := hanti z y
          omega
        · exact hy z hz'
      · exact ih hys (fun z hz => hne z (List.mem_cons_of_mem y hz))

theorem sortCmp_sorted {α : Type _} (c : α → α → Int)
    (htrans : ∀ a b d, c a b < 0 → c b d < 0 → c a d < 0)
    (hanti : ∀ a b, c b a = -c a b) (l : List α)
    (hl : l.Pairwise (fun a b => c a b ≠ 0)) :
    (sortCmp c l).Pairwise (fun a b => c a b < 0) := by
  induction l using List.reverseRecOn with
  | nil => exact List.Pairwise.nil
  | append_singleton l x ih =>
    rw [sortCmp_append_single]
    obtain ⟨pl, _, hcross⟩ := List.pairwise_append.mp hl
    refine insertCmp_sorted c htrans hanti x (sortCmp c l) (ih pl) ?_
    intro y hy
    have hyl : y ∈ l := (sortCmp_perm c l).mem_iff.mp hy
    have h1 := hcross y hyl x (List.mem_singleton.mpr rfl)
    intro h0
    apply h1
    rw [hanti, h0]
    rfl

theorem insertCmp_neg_reverse {α : Type _} (c : α → α → Int)
    (htrans : ∀ a b d, c a b < 0 → c b d < 0 → c a d < 0) (x : α) :
    ∀ s : List α, s.Pairwise (fun a b => c a b < 0) → (∀ y ∈ s, c x y ≠ 0) →
      insertCmp (fun a b => -(c a b)) x s.reverse = (insertCmp c x s).reverse := by
  intro s
  induction s with
  | nil => intro _ _; rfl
  | cons y ys ih =>
    intro hs hne
    rw [List.pairwise_cons] at hs
    obtain ⟨hy, hys⟩ := hs
    by_cases hxy : c x y < 0
    · have hall : ∀ z ∈ (y :: ys), c x z < 0 := by
        intro z hz
        rcases List.mem_cons.mp hz with rfl | hz
        · exact hxy
        · exact htrans x y z hxy (hy z hz)
      rw [insertCmp_all_ge]
      · simp only [insertCmp, if_pos hxy, List.reverse_cons]
      · intro z hz
        rw [List.mem_reverse] at hz
        have := hall z hz
        omega
    · have hgt : 0 < c x y := by
        have := hne y (List.mem_cons_self y ys)
        omega
      rw [List.reverse_cons, insertCmp_before_last _ x y (by simpa using hgt),
        ih hys (fun z hz => hne z (List.mem_cons_of_mem y hz))]
      simp only [insertCmp, if_neg hxy, List.reverse_cons]

theorem sortCmp_neg_reverse {α : Type _} (c : α → α → Int)
    (htrans : ∀ a b d, c a b < 0 → c b d < 0 → c a d < 0)
    (hanti : ∀ a b, c b a = -c a b) (l : List α)
    (hl : l.Pairwise (fun a b => c a b ≠ 0)) :
    sortCmp (fun a b => -(c a b)) l = (sortCmp c l).reverse := by
  induction l using List.reverseRecOn with
  | nil => rfl
  | append_singleton l x ih =>
    rw [sortCmp_append_single, sortCmp_append_single]
    obtain ⟨pl, _, hcross⟩ := List.pairwise_append.mp hl
    rw [ih pl]
    refine insertCmp_neg_reverse c htrans x (sortCmp c l)
      (sortCmp_sorted c htrans hanti l pl) ?_
    intro y hy
    have hyl : y ∈ l := (sortCmp_perm c l).mem_iff.mp hy
    have h1 := hcross y hyl x (List.mem_singleton.mpr rfl)
    intro h0
    apply h1
    rw [hanti, h0]
    rfl

/-! Order properties of the modelled string comparison. -/

theorem charListCmp_eq_zero_iff : ∀ as bs : List Char,
    charListCmp as bs = 0 ↔ as = bs := by
  intro as
  induction as with
  | nil =>
    intro bs
    cases bs <;> simp [charListCmp]
  | cons a as ih =>
    intro bs
    cases bs with
    | nil => simp [charListCmp]
    | cons b bs =>
      simp only [charListCmp]
      by_cases h1 : a < b
      · rw [if_pos h1]
        constructor
        · intro h
          exact absurd h (by decide)
        · intro heq
          injection heq with h2 _
          rw [h2] at h1
          exact absurd h1 (lt_irrefl b)
      · by_cases h2 : b < a
        · rw [if_neg h1, if_pos h2]
          constructor
          · intro h
            exact absurd h (by decide)
          · intro heq
            injection heq with h3 _
            rw [h3] at h2
            exact absurd h2 (lt_irrefl b)
        · rw [if_neg h1, if_neg h2, ih]
          have hab : a = b := le_antisymm (not_lt.mp h2) (not_lt.mp h1)
          subst hab
          simp

theorem charListCmp_anti : ∀ as bs : List Char,
    charListCmp bs as = -charListCmp as bs := by
  intro as
  induction as with
  | nil =>
    intro bs
    cases bs <;> simp [charListCmp]
  | cons a as ih =>
    intro bs
    cases bs with
    | nil => simp [charListCmp]
    | cons b bs =>
      simp only [charListCmp]
      by_cases h1 : a < b
      · have h2 : ¬ b < a := asymm h1
        simp only [if_pos h1, if_neg h2]
        decide
      · by_cases h2 : b < a
        · simp only [if_neg h1, if_pos h2]
        · simp only [if_neg h1, if_neg h2]
          exact ih bs

theorem charListCmp_lt_trans : ∀ as bs cs : List Char,
    charListCmp as bs < 0 → charListCmp bs cs < 0 → charListCmp as cs < 0 := by
  intro as
  induction as with
  | nil =>
    intro bs cs h1 h2
    cases bs with
    | nil => simp [charListCmp] at h1
    | cons b bs =>
      cases cs with
      | nil => simp [charListCmp] at h2
      | cons c cs => simp [charListCmp]
  | cons a as ih =>
    intro bs cs h1 h2
    cases bs with
    | nil => simp [charListCmp] at h1
    | cons b bs =>
      cases cs with
      | nil => simp [charListCmp] at h2
      | cons c cs =>
        simp only [charListCmp] at h1 h2 ⊢
        by_cases hab : a < b
        · by_cases hbc : b < c
          · rw [if_pos (lt_trans hab hbc)]
            decide
          · by_cases hcb : c < b
            · rw [if_neg hbc, if_pos hcb] at h2
              exact absurd h2 (by decide)
            · have hbceq : b = c := le_antisymm (not_lt.mp hcb) (not_lt.mp hbc)
              rw [if_pos (hbceq ▸ hab)]
              decide
        · by_cases hba : b < a
          · rw [if_neg hab, if_pos hba] at h1
            exact absurd h1 (by decide)
          · have habeq : a = b := le_antisymm (not_lt.mp hba) (not_lt.mp hab)
            subst habeq
            rw [if_neg hab, if_neg hba] at h1
            by_cases hac : a < c
            · rw [if_pos hac]
              decide
            · by_cases hca : c < a
              · rw [if_neg hac, if_pos hca] at h2
                exact absurd h2 (by decide)
              · rw [if_neg hac, if_neg hca] at h2 ⊢
                exact ih bs cs h1 h2

theorem strCmp_eq_zero_iff (a b : String) : strCmp a b = 0 ↔ a = b := by
  rw [strCmp, charListCmp_eq_zero_iff]
  exact ⟨String.ext, fun h => by rw [h]⟩

theorem strCmp_anti (a b : String) : strCmp b a = -strCmp a b :=
  charListCmp_anti a.data b.data

theorem strCmp_lt_trans (a b d : String) :
    strCmp a b < 0 → strCmp b d < 0 → strCmp a d < 0 :=
  charListCmp_lt_trans a.data b.data d.data

/-- C5 counterexample: for two albums whose names compare equal, sorting
by name descending does not reverse the ascending order — the stable sort
keeps tied elements in input order under both directions, so the two
results are equal, not reverses. -/
theorem c5_ties_not_reversed :
    sortAlbums noSongsCache exTiedAlbums "name" "desc" ≠
      (sortAlbums noSongsCache exTiedAlbums "name" "asc").reverse := by
  decide

/-- C5 (amended): for a fixed input list in which no two albums' names
compare equal, sorting by name ascending and sorting the same input by
name descending yield exact reverses of each other.  With ties the stable
sort instead keeps tied elements in input order in both directions. -/
theorem c5_sort_reverse_of_distinct (songsOf : Nat → Option (List Nat))
    (albums : List CacheAlbum) (h : (albums.map (fun a => a.name)).Nodup) :
    sortAlbums songsOf albums "name" "desc" =
      (sortAlbums songsOf albums "name" "asc").reverse := by
  have hdesc : (fun a b : CacheAlbum =>
      if ("desc" : String) = "asc" then albumComparison songsOf "name" a b
      else -(albumComparison songsOf "name" a b)) =
      fun a b => -(albumComparison songsOf "name" a b) := by
    funext a b
    rw [if_neg (by decide)]
  have hasc : (fun a b : CacheAlbum =>
      if ("asc" : String) = "asc" then albumComparison songsOf "name" a b
      else -(albumComparison songsOf "name" a b)) =
      fun a b => albumComparison songsOf "name" a b := by
    funext a b
    rw [if_pos rfl]
  simp only [sortAlbums, hdesc, hasc]
  apply sortCmp_neg_reverse
  · intro a b d h1 h2
    exact strCmp_lt_trans a.name b.name d.name h1 h2
  · intro a b
    exact strCmp_anti a.name b.name
  · have hp : albums.Pairwise (fun a b => a.name ≠ b.name) :=
      List.pairwise_map.mp h
    refine hp.imp ?_
    intro a b hne h0
    exact hne ((strCmp_eq_zero_iff a.name b.name).mp h0)

theorem c5_sort_reverse_of_distinct_witness :
    (exDistinctAlbums.map (fun a => a.name)).Nodup ∧
    sortAlbums noSongsCache exDistinctAlbums "name" "desc" =
      (sortAlbums noSongsCache exDistinctAlbums "name" "asc").reverse :=
  ⟨by decide,
   c5_sort_reverse_of_distinct noSongsCache exDistinctAlbums (by decide)⟩

/-! Lemmas for the Last.fm signature. -/

theorem insertCmp_map {β α : Type _} (f : β → α) (cb : β → β → Int)
    (ca : α → α → Int) (hc : ∀ x y, ca (f x) (f y) = cb x y) (x : β) :
    ∀ s : List β, insertCmp ca (f x) (s.map f) = (insertCmp cb x s).map f := by
  intro s
  induction s with
  | nil => rfl
  | cons y ys ih =>
    simp only [List.map_cons, insertCmp, hc]
    by_cases h : cb x y < 0
    · rw [if_pos h, if_pos h]
      rfl
    · rw [if_neg h, if_neg h, List.map_cons, ih]

theorem sortCmp_map {β α : Type _} (f : β → α) (cb : β → β → Int)
    (ca : α → α → Int) (hc : ∀ x y, ca (f x) (f y) = cb x y) (l : List β) :
    sortCmp ca (l.map f) = (sortCmp cb l).map f := by
  induction l using List.reverseRecOn with
  | nil => rfl
  | append_singleton l x ih =>
    rw [List.map_append, List.map_singleton, sortCmp_append_single,
      sortCmp_append_single, ih, insertCmp_map f cb ca hc]

theorem find?_nodup_keys (l : List (String × String))
    (h : (l.map (fun e => e.1)).Nodup) :
    ∀ p ∈ l, l.find? (fun e => e.1 == p.1) = some p := by
  induction l with
  | nil => intro p hp; cases hp
  | cons q l ih =>
    intro p hp
    rw [List.map_cons, List.nodup_cons] at h
    rcases List.mem_cons.mp hp with rfl | hp
    · exact List.find?_cons_of_pos _ (by simp)
    · have hne : q.1 ≠ p.1 := by
        intro heq
        exact h.1 (heq ▸ List.mem_map.mpr ⟨p, hp, rfl⟩)
      rw [List.find?_cons_of_neg _ (by simp [hne])]
      exact ih h.2 p hp

/-- C8: for every parameter map with distinct names, the Last.fm request
signature is the MD5 hex digest of the concatenation of parameter name
immediately followed by parameter value over all parameters in ascending
name order, with the shared API secret appended at the end and the
`format` parameter excluded from the signature input.  MD5 is abstract,
so the computation is deterministic by construction.  The second conjunct
covers the development-mode variant in `lastfm-service.ts`, which also
strips a `callback` parameter and therefore agrees with the proxy's
algorithm on every map without one (its request maps never carry one). -/
theorem c8_lastfm_signature (md5 : String → String) (apiSecret : String)
    (params : List (String × String)) (h : (params.map (fun e => e.1)).Nodup) :
    (generateSignature md5 apiSecret params =
      md5 (String.join
        ((sortCmp (fun p q => strCmp p.1 q.1)
          (params.filter (fun e => e.1 != "format"))).map (fun p => p.1 ++ p.2)) ++
        apiSecret)) ∧
    ("callback" ∉ params.map (fun e => e.1) →
      generateSignatureService md5 apiSecret params =
        generateSignature md5 apiSecret params) := by
  constructor
  case right =>
    intro hcb
    have hfilter : params.filter (fun e => e.1 != "format" && e.1 != "callback") =
        params.filter (fun e => e.1 != "format") := by
      apply List.filter_congr
      intro e he
      have : e.1 ≠ "callback" := by
        intro heq
        exact hcb (heq ▸ List.mem_map.mpr ⟨e, he, rfl⟩)
      simp [this]
    simp only [generateSignatureService, generateSignature, hfilter]
  simp only [generateSignature]
  congr 2
  have hkeys : sortCmp strCmp
      ((params.filter (fun e => e.1 != "format")).map (fun e => e.1)) =
      (sortCmp (fun p q => strCmp p.1 q.1)
        (params.filter (fun e => e.1 != "format"))).map (fun e => e.1) :=
    sortCmp_map (fun e : String × String => e.1)
      (fun p q : String × String => strCmp p.1 q.1) strCmp
      (fun x y => rfl) _
  rw [hkeys, List.map_map]
  congr 1
  apply List.map_congr_left
  intro p hp
  have hpmem : p ∈ params.filter (fun e => e.1 != "format") :=
    (sortCmp_perm _ _).mem_iff.mp hp
  have hnod : ((params.filter (fun e => e.1 != "format")).map
      (fun e => e.1)).Nodup :=
    List.Nodup.sublist (List.Sublist.map _ (List.filter_sublist params)) h
  simp only [Function.comp_apply]
  rw [lookupParam, find?_nodup_keys _ hnod p hpmem]
  rfl

theorem c8_lastfm_signature_witness :
    (([("method", "auth"), ("api_key", "k"), ("format", "json")] :
      List (String × String)).map (fun e => e.1)).Nodup ∧
    ((generateSignature (fun s => s) "SECRET"
        [("method", "auth"), ("api_key", "k"), ("format", "json")] =
      (fun s : String => s) (String.join
        ((sortCmp (fun p q : String × String => strCmp p.1 q.1)
          (([("method", "auth"), ("api_key", "k"), ("format", "json")] :
            List (String × String)).filter (fun e => e.1 != "format"))).map
          (fun p => p.1 ++ p.2)) ++ "SECRET")) ∧
    ("callback" ∉ ([("method", "auth"), ("api_key", "k"), ("format", "json")] :
        List (String × String)).map (fun e => e.1) →
      generateSignatureService (fun s => s) "SECRET"
          [("method", "auth"), ("api_key", "k"), ("format", "json")] =
        generateSignature (fun s => s) "SECRET"
          [("method", "auth"), ("api_key", "k"), ("format", "json")])) :=
  ⟨by decide,
   c8_lastfm_signature (fun s => s) "SECRET"
     [("method", "auth"), ("api_key", "k"), ("format", "json")] (by decide)⟩

/-- C10 counterexample: the per-batch album cache key
`` `${album}-${artist}` `` is delimiter-ambiguous, so a file with no album
tag can be attached to an album not named `Unknown Album`.  Processing
`x1` (album tag `Unknown Album-Bob`, artist `Cat`) caches that album
under key `Unknown Album-Bob-Cat`; `x2` (no album tag, artist `Bob-Cat`)
computes the same key, hits the cache, and its Song is attached to the
album named `Unknown Album-Bob`, while no album named `Unknown Album`
exists. -/
theorem c10_cache_collision_counterexample :
    exMetaCollide "/m/x2.mp3" =
      some ⟨some "T2", some "Bob-Cat", none, none, none, 0⟩ ∧
    (∃ s ∈ (processBatch noArt exMetaCollide
        ["/m/x1.mp3", "/m/x2.mp3"] [] emptyStore).songs,
      s.filePath = "/m/x2.mp3" ∧
      ∀ a ∈ (processBatch noArt exMetaCollide
          ["/m/x1.mp3", "/m/x2.mp3"] [] emptyStore).albums,
        a.id = s.albumId → a.name = "Unknown Album-Bob") ∧
    (processBatch noArt exMetaCollide
        ["/m/x1.mp3", "/m/x2.mp3"] [] emptyStore).albums.filter
      (fun a => a.name == "Unknown Album") = [] := by
  decide

/-- C10 (amended): for every indexed audio file with a truthy title,
provided the per-batch album cache's entry for the file's album key — if
any — is an album row of the store whose name is the file's computed album
name (in particular whenever the cache is empty; a delimiter collision in
the `` `${album}-${artist}` `` key is the only way to violate this), the
inserted Song carries `metadata.artist || "Unknown Artist"` as its artist
and is attached to an Album named `metadata.album || "Unknown Album"`;
and when the album row is written on this call (cache miss), its artist
is the fallback chain
`metadata.albumartist || metadata.artist || "Various Artists"`. -/
theorem c10_metadata_defaults (artOf : String → Option String) (f : String)
    (m : Metadata) (cache : List (String × Album)) (st : Store)
    (ht : jsTruthy m.title = true)
    (hc : ∀ a, lookupCache cache (albumKeyOf m) = some a →
      a ∈ st.albums ∧ a.name = albumNameOf m) :
    ∃ srow arow,
      (processAudioFile artOf f (some m) cache st).2.songs = st.songs ++ [srow] ∧
      srow.filePath = f ∧
      srow.artist = jsStr m.artist "Unknown Artist" ∧
      (m.artist = none → srow.artist = "Unknown Artist") ∧
      arow ∈ (processAudioFile artOf f (some m) cache st).2.albums ∧
      arow.id = srow.albumId ∧
      arow.name = albumNameOf m ∧
      (m.album = none → arow.name = "Unknown Album") ∧
      (lookupCache cache (albumKeyOf m) = none → arow.artist = albumArtistOf m) := by
  simp only [processAudioFile, ht]
  cases hcl : lookupCache cache (albumKeyOf m) with
  | some album =>
    obtain ⟨hmem, hname⟩ := hc album hcl
    refine ⟨⟨freshId (songIds st), f, jsStr m.title "",
        jsStr m.artist "Unknown Artist", m.duration, album.id⟩, album,
      rfl, rfl, rfl, ?_, hmem, rfl, hname, ?_, ?_⟩
    · intro h
      rw [h]
      rfl
    · intro h
      rw [hname]
      simp [albumNameOf, jsStr, h]
    · intro h
      exact absurd h (by simp)
  | none =>
    cases hf : st.albums.find? (fun a => a.name == albumNameOf m) with
    | some album =>
      have hfmem := List.mem_of_find?_eq_some hf
      have hfname : album.name = albumNameOf m := by
        have := List.find?_some hf
        rwa [beq_iff_eq] at this
      by_cases hu : album.artist ≠ albumArtistOf m ∨ album.year ≠ m.year ∨
          ((artOf (pdirname f)).isSome ∧ album.cover ≠ artOf (pdirname f))
      · simp only [if_pos hu]
        refine ⟨⟨freshId (songIds st), f, jsStr m.title "",
            jsStr m.artist "Unknown Artist", m.duration, album.id⟩,
          { album with
            artist := albumArtistOf m,
            year := m.year,
            cover := (match artOf (pdirname f) with
              | some p => some p | none => album.cover) },
          rfl, rfl, rfl, ?_, ?_, rfl, hfname, ?_, ?_⟩
        · intro h
          rw [h]
          rfl
        · refine List.mem_map.mpr ⟨album, hfmem, ?_⟩
          rw [if_pos rfl]
        · intro h
          rw [hfname]
          simp [albumNameOf, jsStr, h]
        · intro _
          rfl
      · simp only [if_neg hu]
        push_neg at hu
        refine ⟨⟨freshId (songIds st), f, jsStr m.title "",
            jsStr m.artist "Unknown Artist", m.duration, album.id⟩, album,
          rfl, rfl, rfl, ?_, hfmem, rfl, hfname, ?_, ?_⟩
        · intro h
          rw [h]
          rfl
        · intro h
          rw [hfname]
          simp [albumNameOf, jsStr, h]
        · intro _
          exact hu.1
    | none =>
      refine ⟨⟨freshId (songIds st), f, jsStr m.title "",
          jsStr m.artist "Unknown Artist", m.duration, freshId (albumIds st)⟩,
        ⟨freshId (albumIds st), albumNameOf m, albumArtistOf m, m.year,
          artOf (pdirname f)⟩,
        rfl, rfl, rfl, ?_, ?_, rfl, rfl, ?_, ?_⟩
      · intro h
        rw [h]
        rfl
      · exact List.mem_append.mpr (Or.inr (List.mem_singleton.mpr rfl))
      · intro h
        simp [albumNameOf, jsStr, h]
      · intro _
        rfl

theorem c10_metadata_defaults_witness :
    (jsTruthy (⟨some "T2", some "Bob-Cat", none, none, none, 0⟩ : Metadata).title =
      true) ∧
    (∀ a, lookupCache []
        (albumKeyOf ⟨some "T2", some "Bob-Cat", none, none, none, 0⟩) = some a →
      a ∈ emptyStore.albums ∧
      a.name = albumNameOf ⟨some "T2", some "Bob-Cat", none, none, none, 0⟩) ∧
    (∃ srow arow,
      (processAudioFile noArt "/m/x2.mp3"
        (some ⟨some "T2", some "Bob-Cat", none, none, none, 0⟩) []
        emptyStore).2.songs = emptyStore.songs ++ [srow] ∧
      srow.filePath = "/m/x2.mp3" ∧
      srow.artist = jsStr (some "Bob-Cat") "Unknown Artist" ∧
      ((⟨some "T2", some "Bob-Cat", none, none, none, 0⟩ : Metadata).artist = none →
        srow.artist = "Unknown Artist") ∧
      arow ∈ (processAudioFile noArt "/m/x2.mp3"
        (some ⟨some "T2", some "Bob-Cat", none, none, none, 0⟩) []
        emptyStore).2.albums ∧
      arow.id = srow.albumId ∧
      arow.name = albumNameOf ⟨some "T2", some "Bob-Cat", none, none, none, 0⟩ ∧
      ((⟨some "T2", some "Bob-Cat", none, none, none, 0⟩ : Metadata).album = none →
        arow.name = "Unknown Album") ∧
      (lookupCache []
          (albumKeyOf ⟨some "T2", some "Bob-Cat", none, none, none, 0⟩) = none →
        arow.artist =
          albumArtistOf ⟨some "T2", some "Bob-Cat", none, none, none, 0⟩)) :=
  ⟨by decide, fun a h => Option.noConfusion h,
   c10_metadata_defaults noArt "/m/x2.mp3"
     ⟨some "T2", some "Bob-Cat", none, none, none, 0⟩ [] emptyStore
     (by decide) (fun a h => Option.noConfusion h)⟩

end Wora
